import Mathlib

/-!
Verification of the leaf-db document store (`src/model.ts`, class `LeafDB`).

The embedding models the JavaScript value tree as a closed tagged union
`Val` (the spec's design note: null, boolean, number, string, ordered
sequence, ordered-key mapping; numbers are modelled as integers).  A
document is its field list in insertion order, the store state `DB`
carries the `strict` flag, the backing-file flag, the insertion-ordered
identifier set `list` and the identifier-to-document record `map`,
exactly as the `LeafDB` class does.  File contents are passed and
returned explicitly in place of the synchronous `fs` calls.

The class methods (`load`, `persist`, `insert`, `findOne`, `findMany`,
`find`, `updateById`, `update`, `deleteById`, `delete`, `drop`) are
translated from `src/model.ts`.  The helper modules the class imports
(`./validation`, `./modifiers`, `./utils`) are not part of the staged
sources; the definitions for them below are modelled from the spec and
say so in their doc comments.
-/

/-- The closed union of JavaScript/JSON values used for documents,
queries and updates (spec §9: null, boolean, number, string, ordered
sequence, ordered-key mapping; numbers restricted to integers in this
embedding). -/
inductive Val where
  | null : Val
  | bool (b : Bool) : Val
  | num (n : Int) : Val
  | str (s : String) : Val
  | arr (xs : List Val) : Val
  | obj (fs : List (String × Val)) : Val

mutual

/-- Structural equality on values (JS strict deep equality on the closed
union: same type and same content, arrays order-sensitive, objects
key-order-sensitive in this embedding). -/
def Val.beq : Val → Val → Bool
  | .null, .null => true
  | .bool a, .bool b => a == b
  | .num a, .num b => a == b
  | .str a, .str b => a == b
  | .arr a, .arr b => Val.beqList a b
  | .obj a, .obj b => Val.beqObj a b
  | _, _ => false
termination_by structural a => a

def Val.beqList : List Val → List Val → Bool
  | [], [] => true
  | x :: xs, y :: ys => Val.beq x y && Val.beqList xs ys
  | _, _ => false
termination_by structural a => a

def Val.beqObj : List (String × Val) → List (String × Val) → Bool
  | [], [] => true
  | (k1, v1) :: xs, (k2, v2) :: ys => k1 == k2 && Val.beq v1 v2 && Val.beqObj xs ys
  | _, _ => false
termination_by structural a => a

end

mutual

theorem Val.eq_of_beq : ∀ {a b : Val}, Val.beq a b = true → a = b
  | .null, .null, _ => rfl
  | .bool _, .bool _, h => by
    simp only [Val.beq, beq_iff_eq] at h; rw [h]
  | .num _, .num _, h => by
    simp only [Val.beq, beq_iff_eq] at h; rw [h]
  | .str _, .str _, h => by
    simp only [Val.beq, beq_iff_eq] at h; rw [h]
  | .arr _, .arr _, h => by
    simp only [Val.beq] at h
    rw [Val.eq_of_beqList h]
  | .obj _, .obj _, h => by
    simp only [Val.beq] at h
    rw [Val.eq_of_beqObj h]

theorem Val.eq_of_beqList : ∀ {a b : List Val}, Val.beqList a b = true → a = b
  | [], [], _ => rfl
  | _ :: _, _ :: _, h => by
    simp only [Val.beqList, Bool.and_eq_true] at h
    rw [Val.eq_of_beq h.1, Val.eq_of_beqList h.2]

theorem Val.eq_of_beqObj : ∀ {a b : List (String × Val)}, Val.beqObj a b = true → a = b
  | [], [], _ => rfl
  | (_, _) :: _, (_, _) :: _, h => by
    simp only [Val.beqObj, Bool.and_eq_true, beq_iff_eq] at h
    obtain ⟨⟨hk, hv⟩, ht⟩ := h
    rw [Val.eq_of_beq hv, Val.eq_of_beqObj ht, hk]

end

mutual

theorem Val.beq_self : ∀ a : Val, Val.beq a a = true
  | .null => rfl
  | .bool _ => by simp [Val.beq]
  | .num _ => by simp [Val.beq]
  | .str _ => by simp [Val.beq]
  | .arr xs => by simp only [Val.beq]; exact Val.beqList_self xs
  | .obj fs => by simp only [Val.beq]; exact Val.beqObj_self fs

theorem Val.beqList_self : ∀ a : List Val, Val.beqList a a = true
  | [] => rfl
  | x :: xs => by
    simp only [Val.beqList, Bool.and_eq_true]
    exact ⟨Val.beq_self x, Val.beqList_self xs⟩

theorem Val.beqObj_self : ∀ a : List (String × Val), Val.beqObj a a = true
  | [] => rfl
  | (k, v) :: xs => by
    simp only [Val.beqObj, Bool.and_eq_true]
    exact ⟨⟨by simp, Val.beq_self v⟩, Val.beqObj_self xs⟩

end

instance : DecidableEq Val := fun a b =>
  if h : Val.beq a b = true then isTrue (Val.eq_of_beq h)
  else isFalse fun hc => h (hc ▸ Val.beq_self a)

/-- JavaScript truthiness on the value union: `null`, `false`, `0` and
the empty string are falsy, everything else is truthy. -/
def truthy : Val → Bool
  | .null => false
  | .bool b => b
  | .num n => n != 0
  | .str s => !s.isEmpty
  | .arr _ => true
  | .obj _ => true

/-- A document as stored: its ordered field list (`Doc<T>` is a plain
object; `_id` and the tombstone marker `$deleted` are ordinary fields). -/
abbrev Doc := List (String × Val)

/-- JS object property access `o[k]`: the first binding of the key, if
any. -/
def recGet {A : Type} (d : List (String × A)) (k : String) : Option A :=
  (d.find? fun f => f.1 == k).map fun f => f.2

/-- JS object property assignment `o[k] = v`: an existing key keeps its
position and gets the new value, a new key is appended.  This is also
what the spreads `\x7b ...doc, $deleted: true \x7d` and
`\x7b ...newDoc, _id \x7d` in `model.ts` amount to for a single key. -/
def recSet {A : Type} (d : List (String × A)) (k : String) (v : A) : List (String × A) :=
  if d.any fun f => f.1 == k then
    d.map fun f => if f.1 == k then (k, v) else f
  else d ++ [(k, v)]

/-- Field access on a document. -/
def getField (d : Doc) (k : String) : Option Val := recGet d k

/-- Field assignment on a document. -/
def setField (d : Doc) (k : String) (v : Val) : Doc := recSet d k v

/-- `doc.$deleted` is truthy: the tombstone test used by every read,
match, update and delete path of `model.ts`. -/
def Doc.isDel (d : Doc) : Bool :=
  ((getField d "$deleted").map truthy).getD false

/-- The document's identifier when it is a string (validation only lets
string identifiers through). -/
def docId (d : Doc) : Option String :=
  match getField d "_id" with
  | some (.str s) => some s
  | _ => none

example : getField [("a", Val.num 1), ("b", Val.null)] "b" = some Val.null := rfl
example : setField [("a", Val.num 1)] "a" (Val.num 2) = [("a", Val.num 2)] := rfl
example : Doc.isDel [("x", Val.num 1), ("$deleted", Val.bool true)] = true := rfl

/-! ## Validation (modelled from the spec) -/

/-- The key starts with the modifier marker. -/
def startsDollar (k : String) : Bool :=
  match k.toList with
  | c :: _ => c == '$'
  | [] => false

/-- Modelled from the spec: legality of a field name (missing
`src/validation.ts`) — no field name may begin with `$` or contain `.`
(spec §3). -/
def legalFieldName (k : String) : Bool :=
  !startsDollar k && !(k.toList.contains '.')

mutual

/-- Modelled from the spec: legality of a stored value (missing
`src/validation.ts`) — the field-name rules apply at every nesting
level of object-valued fields (spec §3).  The absent sentinel
(`undefined`) has no constructor in the closed union, so the
no-undefined rule is built into the type. -/
def validVal : Val → Bool
  | .arr xs => validValList xs
  | .obj fs => validValObj fs
  | _ => true
termination_by structural v => v

def validValList : List Val → Bool
  | [] => true
  | x :: xs => validVal x && validValList xs
termination_by structural l => l

def validValObj : List (String × Val) → Bool
  | [] => true
  | (k, v) :: fs => legalFieldName k && validVal v && validValObj fs
termination_by structural l => l

end

/-- Modelled from the spec: a well-formed identifier (missing
`src/validation.ts`, `isId`) — identifiers are non-empty strings
(spec §6). -/
def isId (s : String) : Bool := !s.isEmpty

/-- Modelled from the spec: document-shape validation (missing
`src/validation.ts`, `isValidDoc(doc, requireId)`) — every field name
is legal (`_id` being the one reserved name allowed), every value
passes the nested field-name rules, and the identifier, when present,
is a non-empty string.  The second flag demands the identifier be
present (the restore path of `load` reads it right away). -/
def isValidDoc (d : Doc) (requireId : Bool) : Bool :=
  (d.all fun f => (f.1 == "_id" || legalFieldName f.1) && validVal f.2) &&
    (match getField d "_id" with
     | some (.str s) => isId s
     | some _ => false
     | none => !requireId)

/-! ## JSON serialization (`JSON.stringify` on the closed union) -/

/-- One hexadecimal digit, lowercase. -/
def hexDigit (n : Nat) : Char :=
  if n < 10 then Char.ofNat (48 + n) else Char.ofNat (87 + n)

/-- Four hexadecimal digits, for control-character escapes. -/
def hex4 (n : Nat) : String :=
  String.mk [hexDigit (n / 4096 % 16), hexDigit (n / 256 % 16),
    hexDigit (n / 16 % 16), hexDigit (n % 16)]

/-- `JSON.stringify` escaping of one string character. -/
def escChar (c : Char) : String :=
  if c == '"' then "\\\""
  else if c == '\\' then "\\\\"
  else if c == '\n' then "\\n"
  else if c == '\r' then "\\r"
  else if c == '\t' then "\\t"
  else if c == '\x08' then "\\b"
  else if c == '\x0c' then "\\f"
  else if c.toNat < 32 then "\\u" ++ hex4 c.toNat
  else String.singleton c

/-- `JSON.stringify` of a string literal. -/
def encStr (s : String) : String :=
  "\"" ++ String.join (s.toList.map escChar) ++ "\""

mutual

/-- `JSON.stringify` on the closed value union.  On this union (no
functions, no `undefined`, no cycles, integers only) serialization is
total. -/
def stringifyVal : Val → String
  | .null => "null"
  | .bool true => "true"
  | .bool false => "false"
  | .num n => toString n
  | .str s => encStr s
  | .arr xs => "[" ++ stringifyList xs ++ "]"
  | .obj fs => "\x7b" ++ stringifyObj fs ++ "\x7d"
termination_by structural v => v

def stringifyList : List Val → String
  | [] => ""
  | [x] => stringifyVal x
  | x :: y :: xs => stringifyVal x ++ "," ++ stringifyList (y :: xs)
termination_by structural l => l

def stringifyObj : List (String × Val) → String
  | [] => ""
  | [(k, v)] => encStr k ++ ":" ++ stringifyVal v
  | (k, v) :: f :: fs => encStr k ++ ":" ++ stringifyVal v ++ "," ++ stringifyObj (f :: fs)
termination_by structural l => l

end

/-! ## JSON parsing (`JSON.parse`, restricted to the closed union:
integer numbers only; a line whose number has a fraction or exponent is
outside this embedding). -/

/-- JSON whitespace. -/
def isJsonWs (c : Char) : Bool :=
  c == ' ' || c == '\n' || c == '\r' || c == '\t'

/-- Skip leading JSON whitespace. -/
def skipWs : List Char → List Char
  | c :: cs => if isJsonWs c then skipWs cs else c :: cs
  | [] => []

/-- Value of one hexadecimal digit. -/
def hexVal (c : Char) : Option Nat :=
  if '0' ≤ c ∧ c ≤ '9' then some (c.toNat - 48)
  else if 'a' ≤ c ∧ c ≤ 'f' then some (c.toNat - 87)
  else if 'A' ≤ c ∧ c ≤ 'F' then some (c.toNat - 55)
  else none

/-- Parse the body of a JSON string literal after the opening quote:
the decoded characters and the input after the closing quote. -/
def parseStrBody : List Char → Option (List Char × List Char)
  | [] => none
  | '"' :: cs => some ([], cs)
  | '\\' :: e :: cs =>
    match e with
    | '"' => (parseStrBody cs).map fun r => ('"' :: r.1, r.2)
    | '\\' => (parseStrBody cs).map fun r => ('\\' :: r.1, r.2)
    | '/' => (parseStrBody cs).map fun r => ('/' :: r.1, r.2)
    | 'n' => (parseStrBody cs).map fun r => ('\n' :: r.1, r.2)
    | 'r' => (parseStrBody cs).map fun r => ('\r' :: r.1, r.2)
    | 't' => (parseStrBody cs).map fun r => ('\t' :: r.1, r.2)
    | 'b' => (parseStrBody cs).map fun r => ('\x08' :: r.1, r.2)
    | 'f' => (parseStrBody cs).map fun r => ('\x0c' :: r.1, r.2)
    | 'u' =>
      match cs with
      | h1 :: h2 :: h3 :: h4 :: cs' =>
        match hexVal h1, hexVal h2, hexVal h3, hexVal h4 with
        | some a, some b, some c, some d =>
          let n := a * 4096 + b * 256 + c * 16 + d
          if h : n.isValidChar then
            (parseStrBody cs').map fun r => (Char.ofNatAux n h :: r.1, r.2)
          else none
        | _, _, _, _ => none
      | _ => none
    | _ => none
  | c :: cs =>
    if c.toNat < 32 then none
    else (parseStrBody cs).map fun r => (c :: r.1, r.2)

/-- Parse a run of decimal digits (most significant first). -/
def parseDigits : Nat → List Char → Nat × List Char
  | acc, c :: cs =>
    if '0' ≤ c ∧ c ≤ '9' then parseDigits (acc * 10 + (c.toNat - 48)) cs
    else (acc, c :: cs)
  | acc, [] => (acc, [])

/-- Does the input start with a decimal digit? -/
def startsDigit : List Char → Bool
  | c :: _ => '0' ≤ c ∧ c ≤ '9'
  | [] => false

mutual

/-- Recursive-descent JSON value parser; the fuel bounds nesting depth
(each nesting level consumes its opening token first, so input length
suffices as fuel). -/
def parseV : Nat → List Char → Option (Val × List Char)
  | 0, _ => none
  | fuel + 1, cs =>
    match skipWs cs with
    | 'n' :: 'u' :: 'l' :: 'l' :: rest => some (.null, rest)
    | 't' :: 'r' :: 'u' :: 'e' :: rest => some (.bool true, rest)
    | 'f' :: 'a' :: 'l' :: 's' :: 'e' :: rest => some (.bool false, rest)
    | '"' :: rest => (parseStrBody rest).map fun r => (.str (String.mk r.1), r.2)
    | '-' :: rest =>
      if startsDigit rest then
        let (n, rest') := parseDigits 0 rest
        some (.num (-(n : Int)), rest')
      else none
    | '[' :: rest =>
      (match skipWs rest with
       | ']' :: rest' => some (.arr [], rest')
       | _ => (parseElems fuel rest).map fun r => (.arr r.1, r.2))
    | '\x7b' :: rest =>
      (match skipWs rest with
       | '\x7d' :: rest' => some (.obj [], rest')
       | _ => (parseMembers fuel rest).map fun r => (.obj r.1, r.2))
    | c :: rest =>
      if '0' ≤ c ∧ c ≤ '9' then
        let (n, rest') := parseDigits (c.toNat - 48) rest
        some (.num (n : Int), rest')
      else none
    | [] => none

/-- Comma-separated array elements up to the closing bracket. -/
def parseElems : Nat → List Char → Option (List Val × List Char)
  | 0, _ => none
  | fuel + 1, cs => do
    let (v, rest) ← parseV fuel cs
    match skipWs rest with
    | ',' :: rest' => (parseElems fuel rest').map fun r => (v :: r.1, r.2)
    | ']' :: rest' => some ([v], rest')
    | _ => none

/-- Comma-separated object members up to the closing brace. -/
def parseMembers : Nat → List Char → Option (List (String × Val) × List Char)
  | 0, _ => none
  | fuel + 1, cs =>
    match skipWs cs with
    | '"' :: rest => do
      let (k, rest1) ← parseStrBody rest
      match skipWs rest1 with
      | ':' :: rest2 => do
        let (v, rest3) ← parseV fuel rest2
        match skipWs rest3 with
        | ',' :: rest4 => (parseMembers fuel rest4).map fun r => ((String.mk k, v) :: r.1, r.2)
        | '\x7d' :: rest4 => some ([(String.mk k, v)], rest4)
        | _ => none
      | _ => none
    | _ => none

end

/-- `JSON.parse`: parse one value and demand only whitespace after it. -/
def parseJson (s : String) : Option Val :=
  match parseV (s.length + 1) s.toList with
  | some (v, rest) => if skipWs rest = [] then some v else none
  | none => none

example : parseJson "\x7b\"_id\":\"a\",\"n\":-3\x7d" =
    some (Val.obj [("_id", Val.str "a"), ("n", Val.num (-3))]) := by decide
example : parseJson "not json" = none := by decide
example : parseJson "[1,\"x\",null,true]" =
    some (Val.arr [Val.num 1, Val.str "x", Val.null, Val.bool true]) := by decide
example : parseJson (stringifyVal (Val.obj [("_id", Val.str "a"), ("s", Val.str "x\ny")])) =
    some (Val.obj [("_id", Val.str "a"), ("s", Val.str "x\ny")]) := by decide

/-! ## Path resolution (modelled from the spec §4.1, missing source) -/

/-- Split a character list on a separator (`String.prototype.split`
with a one-character separator). -/
def splitCh (sep : Char) : List Char → List (List Char)
  | [] => [[]]
  | c :: cs =>
    match splitCh sep cs, c == sep with
    | r, true => [] :: r
    | s :: ss, false => (c :: s) :: ss
    | [], false => [[c]]

/-- Modelled from the spec: path segments — `.`-separated, with bracket
syntax for sequence indices (`foo.0.bar` and `foo[0].bar` equivalent). -/
def pathSegs (p : String) : List String :=
  (splitCh '.' ((p.toList.filter fun c => c != ']').map
    fun c => if c == '[' then '.' else c)).map String.mk

/-- A segment made only of decimal digits, as a number. -/
def digsNat : Nat → List Char → Option Nat
  | acc, [] => some acc
  | acc, c :: cs =>
    if '0' ≤ c ∧ c ≤ '9' then digsNat (acc * 10 + (c.toNat - 48)) cs else none

/-- Numeric path segment. -/
def segNat (s : String) : Option Nat :=
  match s.toList with
  | [] => none
  | l => digsNat 0 l

/-- One resolution step: numeric segments index into sequences,
segments index into mappings by key, anything else fails. -/
def lookupSeg (v : Val) (seg : String) : Option Val :=
  match v with
  | .obj fs => getField fs seg
  | .arr xs =>
    match segNat seg with
    | some i => xs.get? i
    | none => none
  | _ => none

/-- Modelled from the spec: read-only path resolution (missing source,
spec §4.1); failure of an intermediate segment yields no value, and
matching treats that as a non-match. -/
def resolvePath : Val → List String → Option Val
  | v, [] => some v
  | v, seg :: rest =>
    match lookupSeg v seg with
    | some v' => resolvePath v' rest
    | none => none

example : resolvePath (Val.obj [("a", Val.arr [Val.num 7, Val.obj [("b", Val.str "x")]])])
    (pathSegs "a[1].b") = some (Val.str "x") := by decide

/-! ## Value comparison and query matching (modelled from the spec
§4.2–4.3, missing source) -/

/-- Strict lexicographic order on character lists (JS string `<`). -/
def charsLt : List Char → List Char → Bool
  | [], [] => false
  | [], _ :: _ => true
  | _ :: _, [] => false
  | a :: as, b :: bs => if a < b then true else if b < a then false else charsLt as bs

/-- Modelled from the spec: ordering operators are defined only between
two numbers or two strings (natural numeric / lexicographic order);
mismatched types do not match (spec §4.2). -/
def ordOp (op : String) (r lit : Val) : Bool :=
  match r, lit with
  | .num a, .num b =>
    if op == "$gt" then b < a
    else if op == "$gte" then b ≤ a
    else if op == "$lt" then a < b
    else a ≤ b
  | .str a, .str b =>
    if op == "$gt" then charsLt b.toList a.toList
    else if op == "$gte" then !charsLt a.toList b.toList
    else if op == "$lt" then charsLt a.toList b.toList
    else !charsLt b.toList a.toList
  | _, _ => false

/-- Does `pre` start the list? -/
def startsWithL : List Char → List Char → Bool
  | [], _ => true
  | _ :: _, [] => false
  | p :: ps, c :: cs => p == c && startsWithL ps cs

/-- Substring containment (JS `String.prototype.includes`). -/
def containsL (sub : List Char) : List Char → Bool
  | [] => startsWithL sub []
  | c :: cs => startsWithL sub (c :: cs) || containsL sub cs

/-- Lower-cased characters of a string, for the case-insensitive
substring operator. -/
def lowerL (s : String) : List Char := s.toList.map Char.toLower

mutual

/-- Modelled from the spec: comparing a resolved value against a query
clause payload (spec §4.2) — an object payload matches by superset
semantics (every key of the clause present and matching in the target),
any other payload (scalars, arrays) by full structural equality. -/
def matchVal (r : Val) : Val → Bool
  | .obj qs =>
    (match r with
     | .obj rs => matchValObj rs qs
     | _ => false)
  | v => Val.beq r v
termination_by structural v => v

def matchValObj (rs : List (String × Val)) : List (String × Val) → Bool
  | [] => true
  | (k, qv) :: rest =>
    (match getField rs k with
     | some rv => matchVal rv qv
     | none => false) && matchValObj rs rest
termination_by structural l => l

end

/-- The ordering operator names. -/
def cmpOps : List String := ["$gt", "$gte", "$lt", "$lte"]

instance {ε α : Type} [DecidableEq ε] [DecidableEq α] : DecidableEq (Except ε α) := fun a b =>
  match a, b with
  | .ok x, .ok y =>
    if h : x = y then isTrue (by rw [h]) else isFalse fun hc => by cases hc; exact h rfl
  | .error x, .error y =>
    if h : x = y then isTrue (by rw [h]) else isFalse fun hc => by cases hc; exact h rfl
  | .ok _, .error _ => isFalse fun hc => by cases hc
  | .error _, .ok _ => isFalse fun hc => by cases hc

mutual

/-- Modelled from the spec: the query matcher (missing
`src/validation.ts`, `isQueryMatch`) — a query is a mapping, every
top-level key must match (logical AND); an operator key evaluates its
operator, any other key is a field path compared by the value-comparer
semantics; the array-contains operator raises on a present non-array
field (spec §4.3). -/
def qMatch (d : Doc) : Val → Except String Bool
  | .obj clauses => qClauses d clauses
  | _ => .error "InvalidQuery"
termination_by structural v => v

def qClauses (d : Doc) : List (String × Val) → Except String Bool
  | [] => .ok true
  | (k, v) :: rest =>
    match qClause d k v with
    | .error e => .error e
    | .ok true => qClauses d rest
    | .ok false => .ok false
termination_by structural l => l

def qClause (d : Doc) (k : String) (v : Val) : Except String Bool :=
  if k == "$or" then
    match v with
    | .arr subs => qOr d subs
    | _ => .error "InvalidQuery"
  else if cmpOps.contains k then
    match v with
    | .obj pairs => .ok (pairs.all fun p =>
        match resolvePath (.obj d) (pathSegs p.1) with
        | some r => ordOp k r p.2
        | none => false)
    | _ => .error "InvalidQuery"
  else if k == "$not" then
    match v with
    | .obj pairs => .ok (pairs.all fun p =>
        match resolvePath (.obj d) (pathSegs p.1) with
        | some r => !Val.beq r p.2
        | none => false)
    | _ => .error "InvalidQuery"
  else if k == "$string" || k == "$stringStrict" then
    match v with
    | .obj pairs => .ok (pairs.all fun p =>
        match resolvePath (.obj d) (pathSegs p.1) with
        | some (.str s) =>
          (match p.2 with
           | .str sub =>
             if k == "$stringStrict" then containsL sub.toList s.toList
             else containsL (lowerL sub) (lowerL s)
           | _ => false)
        | _ => false)
    | _ => .error "InvalidQuery"
  else if k == "$keys" then
    match v with
    | .str key => .ok (d.any fun f => f.1 == key)
    | .arr ks =>
      if ks.all fun x => (match x with | .str _ => true | _ => false) then
        .ok (ks.all fun x =>
          match x with
          | .str key => d.any fun f => f.1 == key
          | _ => false)
      else .error "InvalidQuery"
    | _ => .error "InvalidQuery"
  else if k == "$includes" then
    match v with
    | .obj pairs => qIncludes d pairs
    | _ => .error "InvalidQuery"
  else
    match resolvePath (.obj d) (pathSegs k) with
    | some r => .ok (matchVal r v)
    | none => .ok false
termination_by structural v

def qIncludes (d : Doc) : List (String × Val) → Except String Bool
  | [] => .ok true
  | (p, lit) :: rest =>
    match resolvePath (.obj d) (pathSegs p) with
    | some (.arr xs) =>
      if xs.any fun x => Val.beq x lit then qIncludes d rest else .ok false
    | some _ => .error "TypeMismatch"
    | none => .ok false
termination_by structural l => l

def qOr (d : Doc) : List Val → Except String Bool
  | [] => .ok false
  | q :: rest =>
    match qMatch d q with
    | .error e => .error e
    | .ok true => .ok true
    | .ok false => qOr d rest
termination_by structural l => l

end

example : qMatch [("_id", Val.str "1"), ("type", Val.str "normal")]
    (Val.obj [("type", Val.str "normal")]) = .ok true := by decide
example : qMatch [("_id", Val.str "1"), ("type", Val.str "normal")]
    (Val.obj []) = .ok true := by decide
example : qMatch [("_id", Val.str "1"), ("type", Val.str "normal")]
    (Val.obj [("$includes", Val.obj [("type", Val.str "x")])]) =
    .error "TypeMismatch" := by decide

/-! ## Modifier engine and projection (modelled from the spec §4.4, §6,
missing `src/modifiers.ts`) -/

/-- The update is in modifier mode: at least one top-level key starts
with the modifier marker (missing `src/validation.ts`,
`hasOperators`). -/
def hasOperators (u : Val) : Bool :=
  match u with
  | .obj fs => fs.any fun f => startsDollar f.1
  | _ => false

/-- The recognized modifier names: increment, append, assign. -/
def modNames : List String := ["$add", "$push", "$set"]

/-- Modelled from the spec: update validity (missing
`src/validation.ts`, `isValidUpdate`) — an update is an object; in
modifier mode every top-level key must be a recognized modifier (so
modifier and plain field keys cannot mix), in replacement mode the
field names must be legal, the identifier field being permitted and
later ignored by the store (spec §4.4). -/
def isValidUpdate (u : Val) : Bool :=
  match u with
  | .obj fs =>
    if fs.any fun f => startsDollar f.1 then fs.all fun f => modNames.contains f.1
    else fs.all fun f => (f.1 == "_id" || legalFieldName f.1) && validVal f.2
  | _ => false

/-- Modelled from the spec: one modifier applied to one field
(spec §4.4) — increment creates the field at 0 and adds the numeric
delta, failing on a non-numeric target; append creates an empty
sequence and appends, failing on a non-sequence target; assign
creates or overwrites unconditionally subject to field-name
legality. -/
def applyMod (m : String) (d : Doc) (f : String) (v : Val) : Except String Doc :=
  if m == "$add" then
    match v with
    | .num delta =>
      (match getField d f with
       | none => .ok (setField d f (.num delta))
       | some (.num orig) => .ok (setField d f (.num (orig + delta)))
       | some _ => .error "InvalidUpdate")
    | _ => .error "InvalidUpdate"
  else if m == "$push" then
    match getField d f with
    | none => .ok (setField d f (.arr [v]))
    | some (.arr xs) => .ok (setField d f (.arr (xs ++ [v])))
    | some _ => .error "InvalidUpdate"
  else if m == "$set" then
    if legalFieldName f && validVal v then .ok (setField d f v)
    else .error "InvalidUpdate"
  else .error "InvalidUpdate"

/-- A modifier's whole payload, field by field. -/
def applyModPairs (m : String) (d : Doc) : List (String × Val) → Except String Doc
  | [] => .ok d
  | (f, v) :: rest =>
    match applyMod m d f v with
    | .ok d' => applyModPairs m d' rest
    | .error e => .error e

/-- Modelled from the spec: the modifier engine (missing
`src/modifiers.ts`, `modify`; qualified as `Doc.modify` because the
plain name is taken in Lean) — applies every top-level modifier's
payload in order, producing a new document. -/
def Doc.modify (d : Doc) : List (String × Val) → Except String Doc
  | [] => .ok d
  | (m, payload) :: rest =>
    match payload with
    | .obj pairs =>
      (match applyModPairs m d pairs with
       | .ok d' => Doc.modify d' rest
       | .error e => .error e)
    | _ => .error "InvalidUpdate"

/-- Modelled from the spec: projection (missing `src/modifiers.ts`,
`project`) — no projection returns the full document, a field list
returns exactly the listed fields that exist, an empty list the empty
object (spec §6). -/
def project (d : Doc) : Option (List String) → Doc
  | none => d
  | some ks => ks.foldl (fun acc k =>
      match getField d k with
      | some v => acc ++ [(k, v)]
      | none => acc) []

/-! ## The store (`src/model.ts`, class `LeafDB`) -/

/-- The `LeafDB` instance state: the strict flag, whether a backing
file is configured (`this.file`), the insertion-ordered identifier set
`this.list` and the identifier-to-document record `this.map`.  File
contents are passed in and out of `load`/`persist` explicitly. -/
structure DB where
  strict : Bool
  hasFile : Bool
  list : List String
  map : List (String × Doc)
deriving DecidableEq

/-- Record lookup `this.map[_id]`. -/
def mapGet (m : List (String × Doc)) (k : String) : Option Doc := recGet m k

/-- Record assignment `this.map[_id] = doc`: existing key replaced in
place, new key appended. -/
def mapSet (m : List (String × Doc)) (k : String) (d : Doc) : List (String × Doc) :=
  recSet m k d

/-- `delete this.map[_id]`. -/
def mapDel (m : List (String × Doc)) (k : String) : List (String × Doc) :=
  m.filter fun f => f.1 != k

/-- `this.list.add(_id)` (a `Set`: appended only when absent). -/
def listAdd (l : List String) (id : String) : List String :=
  if l.contains id then l else l ++ [id]

/-- `this.list.delete(_id)`. -/
def listDel (l : List String) (id : String) : List String :=
  l.filter fun x => x != id

/-- `flush()`: reset the index. -/
def DB.flush (db : DB) : DB :=
  { db with list := [], map := [] }

/-- Split file text on newline (`split('\n')`). -/
def splitNl (s : String) : List String :=
  (splitCh '\n' s.toList).map String.mk

/-- Join lines with newline (`join('\n')`). -/
def joinNl : List String → String
  | [] => ""
  | [x] => x
  | x :: y :: xs => x ++ "\n" ++ joinNl (y :: xs)

example : splitNl "a\nb.c\n\nd" = ["a", "b.c", "", "d"] := by decide
example : joinNl ["a", "b", "c"] = "a\nb\nc" := by decide

/-- The loop body of `load` (`model.ts` lines 93–110): each non-empty
line is parsed and shape-validated; a failure is raised under strict
policy and otherwise collected into the corrupted list; a good document
is added to the identifier set and the record. -/
def loadLines (db : DB) (corrupted : List String) : List String → DB × Except String (List String)
  | [] => (db, .ok corrupted)
  | line :: rest =>
    if line.isEmpty then loadLines db corrupted rest
    else
      match parseJson line with
      | some (.obj fs) =>
        if isValidDoc fs true then
          match docId fs with
          | some id =>
            loadLines { db with list := listAdd db.list id, map := mapSet db.map id fs }
              corrupted rest
          | none =>
            -- unreachable: `isValidDoc _ true` demands a string identifier
            if db.strict then (db, .error line) else loadLines db (corrupted ++ [line]) rest
        else if db.strict then (db, .error ("Invalid doc: " ++ line))
        else loadLines db (corrupted ++ [line]) rest
      | some _ =>
        if db.strict then (db, .error ("Invalid doc: " ++ line))
        else loadLines db (corrupted ++ [line]) rest
      | none =>
        if db.strict then (db, .error ("Unexpected token in JSON: " ++ line))
        else loadLines db (corrupted ++ [line]) rest

/-- `load()` (`model.ts` lines 81–116).  The backing file's content is
passed explicitly: `none` stands for a missing file (the source then
writes an empty file and leaves the index untouched), `some text` for
an existing one, in which case the index is flushed first and rebuilt
from the lines.  Returns the corrupted raw lines, or the raised error
under strict policy. -/
def DB.load (db : DB) (content : Option String) : DB × Except String (List String) :=
  if !db.hasFile then (db, .error "Cannot load file in memory mode")
  else
    match content with
    | none => (db, .ok [])
    | some text => loadLines db.flush [] (splitNl text)

/-- The loop body of `persist` (`model.ts` lines 124–135): a document
that raises inside the `try` (in this embedding: an identifier with no
record entry, `doc.$deleted` on `undefined`; `JSON.stringify` is total
on the closed union) is removed from both the identifier set and the
record, and re-raised under strict policy; a tombstoned document is
skipped; any other document contributes one serialized line. -/
def persistGo (db : DB) (acc : List String) : List String → DB × Except String String
  | [] => (db, .ok (joinNl acc))
  | id :: rest =>
    match mapGet db.map id with
    | none =>
      let db' := { db with list := listDel db.list id, map := mapDel db.map id }
      if db.strict then (db', .error "TypeError") else persistGo db' acc rest
    | some doc =>
      if doc.isDel then persistGo db acc rest
      else persistGo db (acc ++ [stringifyVal (.obj doc)]) rest

/-- `persist()` (`model.ts` lines 119–138): iterates the identifier set
in stored order and, on success, overwrites the backing file with the
joined payload (the returned string).  Under a strict-policy raise
nothing is written. -/
def DB.persist (db : DB) : DB × Except String String :=
  if !db.hasFile then (db, .error "Tried to call `persist()` in memory mode")
  else persistGo db [] db.list

/-- The loop body of `insert` (`model.ts` lines 154–171): validation
happens per document inside the loop; an invalid document or a
duplicate identifier raises at once (the promise rejects), leaving the
documents already processed inserted; a falsy identifier is replaced by
a generated one without a collision check. -/
def insertGo (gen : Nat → String) (db : DB) (n : Nat) (acc : List Doc) :
    List Doc → DB × Except String (List Doc)
  | [] => (db, .ok acc)
  | d :: rest =>
    if !isValidDoc d false then (db, .error "newDoc is not a valid document")
    else if !(((getField d "_id").map truthy).getD false) then
      let id := gen n
      let d' := setField d "_id" (.str id)
      insertGo gen { db with list := listAdd db.list id, map := mapSet db.map id d' }
        (n + 1) (acc ++ [d']) rest
    else
      match docId d with
      | some id =>
        if db.list.contains id then (db, .error ("`_id` already exists: " ++ id))
        else insertGo gen { db with list := listAdd db.list id, map := mapSet db.map id d }
          n (acc ++ [d]) rest
      | none =>
        -- unreachable: a valid document's truthy identifier is a string
        (db, .error "newDoc is not a valid document")

/-- `insert()` (`model.ts` lines 144–175), with the identifier
generator (`generateUid` of the missing `src/utils.ts`) passed as a
parameter. -/
def DB.insert (gen : Nat → String) (db : DB) (newDocs : List Doc) :
    DB × Except String (List Doc) :=
  insertGo gen db 0 [] newDocs

/-- `findOne()` (`model.ts` lines 182–190): the record entry when it
exists and is not tombstoned, projected; otherwise `null`. -/
def DB.findOne (db : DB) (id : String) (proj : Option (List String)) :
    Except String (Option Doc) :=
  if !isId id then .error ("Invalid _id: " ++ id)
  else
    match mapGet db.map id with
    | some doc => if !doc.isDel then .ok (some (project doc proj)) else .ok none
    | none => .ok none

/-- The loop body of `findMany` (`model.ts` lines 204–210): each
identifier is checked, missing or tombstoned entries are skipped. -/
def findManyGo (db : DB) (proj : Option (List String)) (acc : List Doc) :
    List String → Except String (List Doc)
  | [] => .ok acc
  | id :: rest =>
    if !isId id then .error ("Invalid _id: " ++ id)
    else
      match mapGet db.map id with
      | some doc =>
        if !doc.isDel then findManyGo db proj (acc ++ [project doc proj]) rest
        else findManyGo db proj acc rest
      | none => findManyGo db proj acc rest

/-- `findMany()` (`model.ts` lines 197–214). -/
def DB.findMany (db : DB) (ids : List String) (proj : Option (List String)) :
    Except String (List Doc) :=
  findManyGo db proj [] ids

/-- The loop body of `find` (`model.ts` lines 227–233): iterate the
identifier set; an identifier with no record entry raises
(`doc.$deleted` on `undefined`); tombstoned documents are skipped
before matching; a matcher error propagates. -/
def findGo (db : DB) (q : Val) (proj : Option (List String)) (acc : List Doc) :
    List String → Except String (List Doc)
  | [] => .ok acc
  | id :: rest =>
    match mapGet db.map id with
    | none => .error "TypeError"
    | some doc =>
      if doc.isDel then findGo db q proj acc rest
      else
        match qMatch doc q with
        | .error e => .error e
        | .ok true => findGo db q proj (acc ++ [project doc proj]) rest
        | .ok false => findGo db q proj acc rest

/-- `find()` (`model.ts` lines 221–237). -/
def DB.find (db : DB) (q : Val) (proj : Option (List String)) : Except String (List Doc) :=
  match q with
  | .obj _ => findGo db q proj [] db.list
  | _ => .error "Invalid query"

/-- The shared update step (`model.ts` lines 264–270 and 299–305): the
new document is the modifier result or the replacement object, the
identifier is re-imposed by the trailing spread, and the record entry
is swapped. -/
def updNewDoc (doc : Doc) (u : Val) : Except String Doc :=
  if hasOperators u then
    match u with
    | .obj fs => Doc.modify doc fs
    | _ => .error "Invalid update"
  else
    match u with
    | .obj fs => .ok fs
    | _ => .error "Invalid update"

def updStep (db : DB) (u : Val) (proj : Option (List String)) (id : String) (doc : Doc)
    (acc : List Doc) : Except String (DB × List Doc) :=
  match updNewDoc doc u with
  | .error e => .error e
  | .ok nd =>
    let nd' := setField nd "_id" (.str id)
    .ok ({ db with map := mapSet db.map id nd' }, acc ++ [project nd' proj])

/-- The loop body of `updateById` (`model.ts` lines 256–272): each
identifier is checked (an invalid one raises, keeping the updates
already applied), missing or tombstoned entries are skipped. -/
def updateByIdGo (u : Val) (proj : Option (List String)) (db : DB) (acc : List Doc) :
    List String → DB × Except String (List Doc)
  | [] => (db, .ok acc)
  | id :: rest =>
    if !isId id then (db, .error ("Invalid _id: " ++ id))
    else
      match mapGet db.map id with
      | none => updateByIdGo u proj db acc rest
      | some doc =>
        if doc.isDel then updateByIdGo u proj db acc rest
        else
          match updStep db u proj id doc acc with
          | .error e => (db, .error e)
          | .ok (db', acc') => updateByIdGo u proj db' acc' rest

/-- `updateById()` (`model.ts` lines 245–276). -/
def DB.updateById (db : DB) (ids : List String) (u : Val) (proj : Option (List String)) :
    DB × Except String (List Doc) :=
  if !isValidUpdate u then (db, .error "Invalid update")
  else updateByIdGo u proj db [] ids

/-- The loop body of `update` (`model.ts` lines 295–307): iterate the
identifier set; a missing record entry raises; tombstoned documents are
skipped before matching; matcher and modifier errors propagate, keeping
the updates already applied. -/
def updateGo (q u : Val) (proj : Option (List String)) (db : DB) (acc : List Doc) :
    List String → DB × Except String (List Doc)
  | [] => (db, .ok acc)
  | id :: rest =>
    match mapGet db.map id with
    | none => (db, .error "TypeError")
    | some doc =>
      if doc.isDel then updateGo q u proj db acc rest
      else
        match qMatch doc q with
        | .error e => (db, .error e)
        | .ok false => updateGo q u proj db acc rest
        | .ok true =>
          match updStep db u proj id doc acc with
          | .error e => (db, .error e)
          | .ok (db', acc') => updateGo q u proj db' acc' rest

/-- `update()` (`model.ts` lines 284–311). -/
def DB.update (db : DB) (q u : Val) (proj : Option (List String)) :
    DB × Except String (List Doc) :=
  match q with
  | .obj _ =>
    if !isValidUpdate u then (db, .error "Invalid update")
    else updateGo q u proj db [] db.list
  | _ => (db, .error "Invalid query")

/-- The loop body of `deleteById` (`model.ts` lines 322–333): an
invalid identifier raises, keeping the tombstones already set; a live
entry gets the tombstone flag and is counted once. -/
def deleteByIdGo (db : DB) (count : Nat) : List String → DB × Except String Nat
  | [] => (db, .ok count)
  | id :: rest =>
    if !isId id then (db, .error ("Invalid _id: " ++ id))
    else
      match mapGet db.map id with
      | some doc =>
        if !doc.isDel then
          deleteByIdGo
            { db with map := mapSet db.map id (setField doc "$deleted" (.bool true)) }
            (count + 1) rest
        else deleteByIdGo db count rest
      | none => deleteByIdGo db count rest

/-- `deleteById()` (`model.ts` lines 317–337). -/
def DB.deleteById (db : DB) (ids : List String) : DB × Except String Nat :=
  deleteByIdGo db 0 ids

/-- The loop body of `delete` (`model.ts` lines 348–355): iterate the
identifier set; a missing record entry raises; a live matching entry
gets the tombstone flag and is counted once; already-tombstoned
documents are skipped before matching. -/
def deleteGo (q : Val) (db : DB) (count : Nat) : List String → DB × Except String Nat
  | [] => (db, .ok count)
  | id :: rest =>
    match mapGet db.map id with
    | none => (db, .error "TypeError")
    | some doc =>
      if doc.isDel then deleteGo q db count rest
      else
        match qMatch doc q with
        | .error e => (db, .error e)
        | .ok true =>
          deleteGo q
            { db with map := mapSet db.map id (setField doc "$deleted" (.bool true)) }
            (count + 1) rest
        | .ok false => deleteGo q db count rest

/-- `delete()` (`model.ts` lines 343–359). -/
def DB.delete (db : DB) (q : Val) : DB × Except String Nat :=
  match q with
  | .obj _ => deleteGo q db 0 db.list
  | _ => (db, .error "Invalid query")

/-- `drop()` (`model.ts` lines 362–365): flush, then persist when a
backing file is configured.  The ok value carries the content written
(`some ""` with a file, `none` in memory mode). -/
def DB.drop (db : DB) : DB × Except String (Option String) :=
  let db' := db.flush
  if db.hasFile then
    match db'.persist with
    | (db2, .ok content) => (db2, .ok (some content))
    | (db2, .error e) => (db2, .error e)
  else (db', .ok none)

/-! ## Basic lemmas about fields, the record and the identifier set -/

theorem find?_map_keyhit {A : Type} (d : List (String × A)) (k : String) (v : A) :
    List.find? (fun f => f.1 == k) (d.map fun f => if f.1 == k then (k, v) else f)
      = (List.find? (fun f => f.1 == k) d).map fun f => if f.1 == k then (k, v) else f := by
  rw [List.find?_map]
  have hpe : ((fun f => f.1 == k) ∘ fun (f : String × A) => if f.1 == k then (k, v) else f)
      = fun f => f.1 == k := by
    funext f
    by_cases hf : f.1 = k <;> simp [hf]
  rw [hpe]

theorem find?_map_keymiss {A : Type} (d : List (String × A)) (k k' : String) (v : A)
    (hne : k' ≠ k) :
    List.find? (fun f => f.1 == k') (d.map fun f => if f.1 == k then (k, v) else f)
      = List.find? (fun f => f.1 == k') d := by
  rw [List.find?_map]
  have hpe : ((fun f => f.1 == k') ∘ fun (f : String × A) => if f.1 == k then (k, v) else f)
      = fun f => f.1 == k' := by
    funext f
    by_cases hf : f.1 = k <;> simp [hf, Ne.symm hne]
  rw [hpe]
  cases hfind : List.find? (fun f => f.1 == k') d with
  | none => rfl
  | some f0 =>
    have hp := List.find?_some hfind
    have hne0 : ¬f0.1 = k := by
      intro hc
      rw [beq_iff_eq] at hp
      exact hne (hc ▸ hp).symm
    simp [hne0]

theorem recGet_recSet_self {A : Type} (d : List (String × A)) (k : String) (v : A) :
    recGet (recSet d k v) k = some v := by
  unfold recSet
  by_cases hany : (d.any fun f => f.1 == k) = true
  · rw [if_pos hany]
    unfold recGet
    rw [find?_map_keyhit]
    cases hfind : List.find? (fun f => f.1 == k) d with
    | none =>
      rw [List.find?_eq_none] at hfind
      rw [List.any_eq_true] at hany
      obtain ⟨f0, hf0, hp⟩ := hany
      exact absurd hp (hfind f0 hf0)
    | some f0 =>
      have hp := List.find?_some hfind
      simp [hp, beq_iff_eq.mp hp]
  · rw [if_neg hany]
    unfold recGet
    have hnone : List.find? (fun f => f.1 == k) d = none := by
      rw [List.find?_eq_none]
      intro x hx hp
      exact hany (List.any_eq_true.mpr ⟨x, hx, hp⟩)
    rw [List.find?_append, hnone]
    have hone : List.find? (fun f => f.1 == k) [(k, v)] = some (k, v) :=
      List.find?_cons_of_pos _ (by simp)
    rw [hone, Option.none_or]
    rfl

theorem recGet_recSet_ne {A : Type} (d : List (String × A)) (k k' : String) (v : A)
    (h : k' ≠ k) :
    recGet (recSet d k v) k' = recGet d k' := by
  unfold recSet
  by_cases hany : (d.any fun f => f.1 == k) = true
  · rw [if_pos hany]
    unfold recGet
    rw [find?_map_keymiss d k k' v h]
  · rw [if_neg hany]
    unfold recGet
    rw [List.find?_append]
    have hb : (k == k') = false := beq_eq_false_iff_ne.mpr (Ne.symm h)
    have hlast : List.find? (fun f => f.1 == k') [(k, v)] = none := by
      simp [List.find?, hb]
    rw [hlast, Option.or_none]

theorem getField_setField_self (d : Doc) (k : String) (v : Val) :
    getField (setField d k v) k = some v := recGet_recSet_self d k v

theorem getField_setField_ne (d : Doc) (k k' : String) (v : Val) (h : k' ≠ k) :
    getField (setField d k v) k' = getField d k' := recGet_recSet_ne d k k' v h

theorem mapGet_mapSet_self (m : List (String × Doc)) (k : String) (d : Doc) :
    mapGet (mapSet m k d) k = some d := recGet_recSet_self m k d

theorem mapGet_mapSet_ne (m : List (String × Doc)) (k k' : String) (d : Doc) (h : k' ≠ k) :
    mapGet (mapSet m k d) k' = mapGet m k' := recGet_recSet_ne m k k' d h

theorem docId_setField_id (d : Doc) (s : String) :
    docId (setField d "_id" (.str s)) = some s := by
  unfold docId
  rw [getField_setField_self]

theorem isDel_setField_del (d : Doc) :
    Doc.isDel (setField d "$deleted" (.bool true)) = true := by
  unfold Doc.isDel
  rw [getField_setField_self]
  rfl

theorem listAdd_mem (l : List String) (id x : String) :
    x ∈ listAdd l id ↔ x ∈ l ∨ x = id := by
  unfold listAdd
  by_cases h : l.contains id
  · rw [if_pos h]
    constructor
    · exact Or.inl
    · rintro (hx | rfl)
      · exact hx
      · simpa using h
  · rw [if_neg h]
    simp [List.mem_append]

theorem listAdd_nodup (l : List String) (id : String) (h : l.Nodup) :
    (listAdd l id).Nodup := by
  unfold listAdd
  by_cases hc : l.contains id
  · rw [if_pos hc]; exact h
  · rw [if_neg hc]
    rw [List.nodup_append]
    refine ⟨h, List.nodup_singleton id, ?_⟩
    intro a ha hb
    simp only [List.mem_singleton] at hb
    subst hb
    exact hc (by simpa using ha)

theorem listDel_mem (l : List String) (id x : String) :
    x ∈ listDel l id ↔ x ∈ l ∧ x ≠ id := by
  unfold listDel
  simp [List.mem_filter]

theorem listDel_nodup (l : List String) (id : String) (h : l.Nodup) :
    (listDel l id).Nodup := List.Nodup.filter _ h

theorem mapGet_mapDel (m : List (String × Doc)) (k x : String) :
    mapGet (mapDel m k) x = if x = k then none else mapGet m x := by
  induction m with
  | nil => by_cases hx : x = k <;> simp [hx, mapGet, mapDel, recGet]
  | cons f m ih =>
    by_cases hf : f.1 = k
    · have hbne : (f.1 != k) = false := by simp [hf]
      have hstep : mapDel (f :: m) k = mapDel m k := by
        simp [mapDel, List.filter, hbne]
      rw [hstep, ih]
      by_cases hx : x = k
      · rw [if_pos hx, if_pos hx]
      · rw [if_neg hx, if_neg hx]
        have hfx : (f.1 == x) = false := by
          refine beq_eq_false_iff_ne.mpr fun hc => hx ?_
          rw [hf] at hc; exact hc.symm
        simp [mapGet, recGet, List.find?, hfx]
    · have hbne : (f.1 != k) = true := by simp [hf]
      have hstep : mapDel (f :: m) k = f :: mapDel m k := by
        simp [mapDel, List.filter, hbne]
      rw [hstep]
      by_cases hfx : f.1 = x
      · have hx : ¬x = k := fun hc => hf (hfx.trans hc)
        have hb : (f.1 == x) = true := beq_iff_eq.mpr hfx
        rw [if_neg hx]
        simp [mapGet, recGet, List.find?, hb]
      · have hb : (f.1 == x) = false := beq_eq_false_iff_ne.mpr hfx
        have h1 : mapGet (f :: mapDel m k) x = mapGet (mapDel m k) x := by
          simp [mapGet, recGet, List.find?, hb]
        rw [h1, ih]
        by_cases hx : x = k
        · rw [if_pos hx, if_pos hx]
        · rw [if_neg hx, if_neg hx]
          simp [mapGet, recGet, List.find?, hb]

theorem mapDel_of_none (m : List (String × Doc)) (k : String) (h : mapGet m k = none) :
    mapDel m k = m := by
  unfold mapDel
  refine List.filter_eq_self.mpr fun f hf => ?_
  unfold mapGet recGet at h
  rw [Option.map_eq_none', List.find?_eq_none] at h
  have := h f hf
  simp at this ⊢
  exact this

theorem mapGet_isSome_iff (m : List (String × Doc)) (k : String) :
    (mapGet m k).isSome = true ↔ k ∈ m.map Prod.fst := by
  unfold mapGet recGet
  cases hfind : List.find? (fun f => f.1 == k) m with
  | none =>
    rw [List.find?_eq_none] at hfind
    constructor
    · intro h
      exact Bool.noConfusion h
    · intro h
      obtain ⟨f, hf, hk⟩ := List.mem_map.mp h
      exact absurd (beq_iff_eq.mpr hk) (hfind f hf)
  | some f0 =>
    refine ⟨fun _ => ?_, fun _ => rfl⟩
    have hb := List.find?_some hfind
    rw [beq_iff_eq] at hb
    exact List.mem_map.mpr ⟨f0, List.mem_of_find?_eq_some hfind, hb⟩

theorem keys_mapSet (m : List (String × Doc)) (k : String) (d : Doc) :
    (mapSet m k d).map Prod.fst =
      if m.any fun f => f.1 == k then m.map Prod.fst else m.map Prod.fst ++ [k] := by
  unfold mapSet recSet
  by_cases hany : (m.any fun f => f.1 == k) = true
  · rw [if_pos hany, if_pos hany, List.map_map]
    refine List.map_congr_left fun f hf => ?_
    by_cases hfk : f.1 = k <;> simp [hfk]
  · rw [if_neg hany, if_neg hany, List.map_append]
    rfl

theorem keys_mapSet_nodup (m : List (String × Doc)) (k : String) (d : Doc)
    (h : (m.map Prod.fst).Nodup) : ((mapSet m k d).map Prod.fst).Nodup := by
  rw [keys_mapSet]
  by_cases hany : (m.any fun f => f.1 == k) = true
  · rw [if_pos hany]; exact h
  · rw [if_neg hany]
    rw [List.nodup_append]
    refine ⟨h, List.nodup_singleton k, fun a ha hb => ?_⟩
    simp only [List.mem_singleton] at hb
    subst hb
    obtain ⟨f, hf, hk⟩ := List.mem_map.mp ha
    exact hany (List.any_eq_true.mpr ⟨f, hf, beq_iff_eq.mpr hk⟩)

theorem mem_mapSet (m : List (String × Doc)) (k : String) (d : Doc) (f : String × Doc)
    (h : f ∈ mapSet m k d) : f = (k, d) ∨ f ∈ m := by
  unfold mapSet recSet at h
  by_cases hany : (m.any fun g => g.1 == k) = true
  · rw [if_pos hany] at h
    obtain ⟨f0, hf0, hgf⟩ := List.mem_map.mp h
    by_cases hfk : f0.1 = k
    · left; rw [← hgf]; simp [hfk]
    · right; rw [← hgf]; simpa [hfk] using hf0
  · rw [if_neg hany] at h
    rcases List.mem_append.mp h with h1 | h1
    · exact Or.inr h1
    · simp only [List.mem_singleton] at h1
      exact Or.inl h1

/-! ## The index invariant (claim C7's bijection) -/

/-- The bijection between the insertion-ordered identifier set and the
identifier-to-document record: no identifier twice in the sequence, no
key twice in the record, every listed identifier has a record entry and
every record key is listed. -/
def DBInv (db : DB) : Prop :=
  db.list.Nodup ∧ ((db.map.map Prod.fst).Nodup ∧
    ((∀ id ∈ db.list, (mapGet db.map id).isSome = true) ∧
      (∀ f ∈ db.map, f.1 ∈ db.list)))

instance (db : DB) : Decidable (DBInv db) := by
  unfold DBInv
  infer_instance

theorem DBInv_insertPair (db : DB) (id : String) (d : Doc) (h : DBInv db) :
    DBInv { db with list := listAdd db.list id, map := mapSet db.map id d } := by
  obtain ⟨h1, h2, h3, h4⟩ := h
  refine ⟨listAdd_nodup _ _ h1, keys_mapSet_nodup _ _ _ h2, ?_, ?_⟩
  · intro x hx
    by_cases hxid : x = id
    · subst hxid
      rw [mapGet_mapSet_self]
      rfl
    · rw [mapGet_mapSet_ne _ _ _ _ hxid]
      rcases (listAdd_mem _ _ _).mp hx with h | h
      · exact h3 x h
      · exact absurd h hxid
  · intro f hf
    rcases mem_mapSet _ _ _ _ hf with rfl | hfm
    · exact (listAdd_mem _ _ _).mpr (Or.inr rfl)
    · exact (listAdd_mem _ _ _).mpr (Or.inl (h4 f hfm))

theorem DBInv_mapSet_present (db : DB) (id : String) (d : Doc) (h : DBInv db)
    (hpres : (mapGet db.map id).isSome = true) :
    DBInv { db with map := mapSet db.map id d } := by
  obtain ⟨h1, h2, h3, h4⟩ := h
  refine ⟨h1, keys_mapSet_nodup _ _ _ h2, ?_, ?_⟩
  · intro x hx
    by_cases hxid : x = id
    · subst hxid
      rw [mapGet_mapSet_self]
      rfl
    · rw [mapGet_mapSet_ne _ _ _ _ hxid]
      exact h3 x hx
  · intro f hf
    rcases mem_mapSet _ _ _ _ hf with rfl | hfm
    · obtain ⟨f0, hf0, hk⟩ := List.mem_map.mp ((mapGet_isSome_iff _ _).mp hpres)
      exact hk ▸ h4 f0 hf0
    · exact h4 f hfm

theorem DBInv_removePair (db : DB) (id : String) (h : DBInv db) :
    DBInv { db with list := listDel db.list id, map := mapDel db.map id } := by
  obtain ⟨h1, h2, h3, h4⟩ := h
  refine ⟨listDel_nodup _ _ h1, ?_, ?_, ?_⟩
  · exact h2.sublist ((List.filter_sublist _).map Prod.fst)
  · intro x hx
    obtain ⟨hxl, hxid⟩ := (listDel_mem _ _ _).mp hx
    rw [mapGet_mapDel, if_neg hxid]
    exact h3 x hxl
  · intro f hf
    obtain ⟨hfm, hp⟩ := List.mem_filter.mp hf
    refine (listDel_mem _ _ _).mpr ⟨h4 f hfm, ?_⟩
    simpa using hp

theorem DBInv_flush (db : DB) : DBInv db.flush := by
  refine ⟨List.nodup_nil, List.nodup_nil, ?_, ?_⟩
  · intro id hid
    cases hid
  · intro f hf
    cases hf

theorem DBInv_insertGo (gen : Nat → String) (docs : List Doc) :
    ∀ db n acc, DBInv db → DBInv (insertGo gen db n acc docs).1 := by
  induction docs with
  | nil => intro db n acc h; exact h
  | cons d rest ih =>
    intro db n acc h
    unfold insertGo
    by_cases hv : (!isValidDoc d false) = true
    · simp only [hv, if_true]; exact h
    · simp only [hv, if_false]
      by_cases hfalsy : (!(((getField d "_id").map truthy).getD false)) = true
      · simp only [hfalsy, if_true]
        exact ih _ _ _ (DBInv_insertPair db _ _ h)
      · simp only [hfalsy, if_false]
        cases hdi : docId d with
        | some id =>
          by_cases hdup : (db.list.contains id) = true
          · simp only [hdup, if_true]; exact h
          · simp only [hdup, if_false]
            exact ih _ _ _ (DBInv_insertPair db _ _ h)
        | none => exact h

theorem DBInv_insert (gen : Nat → String) (db : DB) (docs : List Doc) (h : DBInv db) :
    DBInv (DB.insert gen db docs).1 := DBInv_insertGo gen docs db 0 [] h

theorem DBInv_loadLines (lines : List String) :
    ∀ db corrupted, DBInv db → DBInv (loadLines db corrupted lines).1 := by
  induction lines with
  | nil => intro db corrupted h; exact h
  | cons line rest ih =>
    intro db corrupted h
    unfold loadLines
    by_cases he : line.isEmpty = true
    · simp only [he, if_true]; exact ih _ _ h
    · simp only [he, if_false]
      cases hp : parseJson line with
      | some v =>
        cases v with
        | obj fs =>
          by_cases hval : isValidDoc fs true = true
          · simp only [hval, if_true]
            cases hdi : docId fs with
            | some id => exact ih _ _ (DBInv_insertPair db _ _ h)
            | none =>
              by_cases hs : db.strict = true
              · simp only [hs, if_true]; exact h
              · simp only [hs, if_false]; exact ih _ _ h
          · simp only [hval, if_false]
            by_cases hs : db.strict = true
            · simp only [hs, if_true]; exact h
            · simp only [hs, if_false]; exact ih _ _ h
        | null =>
          by_cases hs : db.strict = true
          · simp only [hs, if_true]; exact h
          · simp only [hs, if_false]; exact ih _ _ h
        | bool b =>
          by_cases hs : db.strict = true
          · simp only [hs, if_true]; exact h
          · simp only [hs, if_false]; exact ih _ _ h
        | num n =>
          by_cases hs : db.strict = true
          · simp only [hs, if_true]; exact h
          · simp only [hs, if_false]; exact ih _ _ h
        | str str =>
          by_cases hs : db.strict = true
          · simp only [hs, if_true]; exact h
          · simp only [hs, if_false]; exact ih _ _ h
        | arr xs =>
          by_cases hs : db.strict = true
          · simp only [hs, if_true]; exact h
          · simp only [hs, if_false]; exact ih _ _ h
      | none =>
        by_cases hs : db.strict = true
        · simp only [hs, if_true]; exact h
        · simp only [hs, if_false]; exact ih _ _ h

theorem DBInv_load (db : DB) (content : Option String) (h : DBInv db) :
    DBInv (db.load content).1 := by
  unfold DB.load
  by_cases hf : (!db.hasFile) = true
  · simp only [hf, if_true]; exact h
  · simp only [hf, if_false]
    cases content with
    | none => exact h
    | some text => exact DBInv_loadLines _ _ _ (DBInv_flush db)

theorem DBInv_persistGo (ids : List String) :
    ∀ db acc, DBInv db → DBInv (persistGo db acc ids).1 := by
  induction ids with
  | nil => intro db acc h; exact h
  | cons id rest ih =>
    intro db acc h
    unfold persistGo
    cases hm : mapGet db.map id with
    | none =>
      by_cases hs : db.strict = true
      · simp only [hs, if_true]; exact DBInv_removePair db id h
      · simp only [hs, if_false]; exact ih _ _ (DBInv_removePair db id h)
    | some doc =>
      by_cases hd : doc.isDel = true
      · simp only [hd, if_true]; exact ih _ _ h
      · simp only [hd, if_false]; exact ih _ _ h

theorem DBInv_persist (db : DB) (h : DBInv db) : DBInv db.persist.1 := by
  unfold DB.persist
  by_cases hf : (!db.hasFile) = true
  · simp only [hf, if_true]; exact h
  · simp only [hf, if_false]; exact DBInv_persistGo _ _ _ h

theorem DBInv_updStep (db : DB) (u : Val) (proj : Option (List String)) (id : String)
    (doc : Doc) (acc : List Doc) (h : DBInv db) (hpres : mapGet db.map id = some doc)
    (db' : DB) (acc' : List Doc) (hstep : updStep db u proj id doc acc = .ok (db', acc')) :
    DBInv db' := by
  unfold updStep at hstep
  cases hnd : updNewDoc doc u with
  | error e => rw [hnd] at hstep; cases hstep
  | ok nd =>
    rw [hnd] at hstep
    simp only [Except.ok.injEq, Prod.mk.injEq] at hstep
    obtain ⟨hdb, -⟩ := hstep
    rw [← hdb]
    exact DBInv_mapSet_present db id _ h (by rw [hpres]; rfl)

theorem DBInv_updateByIdGo (u : Val) (proj : Option (List String)) (ids : List String) :
    ∀ db acc, DBInv db → DBInv (updateByIdGo u proj db acc ids).1 := by
  induction ids with
  | nil => intro db acc h; exact h
  | cons id rest ih =>
    intro db acc h
    unfold updateByIdGo
    by_cases hid : (!isId id) = true
    · simp only [hid, if_true]; exact h
    · simp only [hid, if_false]
      cases hm : mapGet db.map id with
      | none => exact ih _ _ h
      | some doc =>
        by_cases hd : doc.isDel = true
        · simp only [hd, if_true]; exact ih _ _ h
        · simp only [hd, if_false]
          cases hstep : updStep db u proj id doc acc with
          | error e => exact h
          | ok p =>
            exact ih _ _ (DBInv_updStep db u proj id doc acc h hm p.1 p.2
              (by rw [hstep]))

theorem DBInv_updateById (db : DB) (ids : List String) (u : Val)
    (proj : Option (List String)) (h : DBInv db) : DBInv (db.updateById ids u proj).1 := by
  unfold DB.updateById
  by_cases hv : (!isValidUpdate u) = true
  · simp only [hv, if_true]; exact h
  · simp only [hv, if_false]; exact DBInv_updateByIdGo u proj ids db [] h

theorem DBInv_updateGo (q u : Val) (proj : Option (List String)) (ids : List String) :
    ∀ db acc, DBInv db → DBInv (updateGo q u proj db acc ids).1 := by
  induction ids with
  | nil => intro db acc h; exact h
  | cons id rest ih =>
    intro db acc h
    unfold updateGo
    cases hm : mapGet db.map id with
    | none => exact h
    | some doc =>
      by_cases hd : doc.isDel = true
      · simp only [hd, if_true]; exact ih _ _ h
      · simp only [hd, if_false]
        cases hq : qMatch doc q with
        | error e => exact h
        | ok b =>
          cases b with
          | false => exact ih _ _ h
          | true =>
            cases hstep : updStep db u proj id doc acc with
            | error e => exact h
            | ok p =>
              exact ih _ _ (DBInv_updStep db u proj id doc acc h hm p.1 p.2
                (by rw [hstep]))

theorem DBInv_update (db : DB) (q u : Val) (proj : Option (List String)) (h : DBInv db) :
    DBInv (db.update q u proj).1 := by
  unfold DB.update
  cases q with
  | obj qs =>
    by_cases hv : (!isValidUpdate u) = true
    · simp only [hv, if_true]; exact h
    · simp only [hv, if_false]; exact DBInv_updateGo _ u proj db.list db [] h
  | null => exact h
  | bool b => exact h
  | num n => exact h
  | str str => exact h
  | arr xs => exact h

theorem DBInv_deleteByIdGo (ids : List String) :
    ∀ db count, DBInv db → DBInv (deleteByIdGo db count ids).1 := by
  induction ids with
  | nil => intro db count h; exact h
  | cons id rest ih =>
    intro db count h
    unfold deleteByIdGo
    by_cases hid : (!isId id) = true
    · simp only [hid, if_true]; exact h
    · simp only [hid, if_false]
      cases hm : mapGet db.map id with
      | some doc =>
        by_cases hd : (!doc.isDel) = true
        · simp only [hd, if_true]
          exact ih _ _ (DBInv_mapSet_present db id _ h (by rw [hm]; rfl))
        · simp only [hd, if_false]; exact ih _ _ h
      | none => exact ih _ _ h

theorem DBInv_deleteById (db : DB) (ids : List String) (h : DBInv db) :
    DBInv (db.deleteById ids).1 := DBInv_deleteByIdGo ids db 0 h

theorem DBInv_deleteGo (q : Val) (ids : List String) :
    ∀ db count, DBInv db → DBInv (deleteGo q db count ids).1 := by
  induction ids with
  | nil => intro db count h; exact h
  | cons id rest ih =>
    intro db count h
    unfold deleteGo
    cases hm : mapGet db.map id with
    | none => exact h
    | some doc =>
      by_cases hd : doc.isDel = true
      · simp only [hd, if_true]; exact ih _ _ h
      · simp only [hd, if_false]
        cases hq : qMatch doc q with
        | error e => exact h
        | ok b =>
          cases b with
          | true => exact ih _ _ (DBInv_mapSet_present db id _ h (by rw [hm]; rfl))
          | false => exact ih _ _ h

theorem DBInv_delete (db : DB) (q : Val) (h : DBInv db) : DBInv (db.delete q).1 := by
  unfold DB.delete
  cases q with
  | obj qs => exact DBInv_deleteGo _ db.list db 0 h
  | null => exact h
  | bool b => exact h
  | num n => exact h
  | str str => exact h
  | arr xs => exact h

theorem DBInv_drop (db : DB) (h : DBInv db) : DBInv db.drop.1 := by
  unfold DB.drop
  by_cases hf : db.hasFile = true
  · simp only [hf, if_true]
    have hper := DBInv_persist db.flush (DBInv_flush db)
    cases hp : db.flush.persist with
    | mk db2 r =>
      rw [hp] at hper
      cases r with
      | ok content => exact hper
      | error e => exact hper
  · simp only [hf, if_false]; exact DBInv_flush db

/-! ## Tombstone exclusion lemmas (claim C5) -/

theorem findManyGo_mem (db : DB) (proj : Option (List String)) (ids : List String) :
    ∀ acc res, findManyGo db proj acc ids = .ok res →
      ∀ x ∈ res, x ∈ acc ∨
        ∃ i d, mapGet db.map i = some d ∧ d.isDel = false ∧ x = project d proj := by
  induction ids with
  | nil =>
    intro acc res hrun x hx
    unfold findManyGo at hrun
    cases hrun
    exact Or.inl hx
  | cons id rest ih =>
    intro acc res hrun x hx
    unfold findManyGo at hrun
    by_cases hid : (!isId id) = true
    · simp only [hid, if_true] at hrun
      cases hrun
    · simp only [hid, if_false] at hrun
      cases hm : mapGet db.map id with
      | some doc =>
        rw [hm] at hrun
        by_cases hd : (!doc.isDel) = true
        · simp only [hd, if_true] at hrun
          rcases ih _ _ hrun x hx with hacc | hlive
          · rcases List.mem_append.mp hacc with h1 | h1
            · exact Or.inl h1
            · simp only [List.mem_singleton] at h1
              subst h1
              exact Or.inr ⟨id, doc, hm, by simpa using hd, rfl⟩
          · exact Or.inr hlive
        · simp only [hd, if_false] at hrun
          exact ih _ _ hrun x hx
      | none =>
        rw [hm] at hrun
        exact ih _ _ hrun x hx

theorem findGo_mem (db : DB) (q : Val) (proj : Option (List String)) (ids : List String) :
    ∀ acc res, findGo db q proj acc ids = .ok res →
      ∀ x ∈ res, x ∈ acc ∨
        ∃ i d, mapGet db.map i = some d ∧ d.isDel = false ∧ x = project d proj := by
  induction ids with
  | nil =>
    intro acc res hrun x hx
    unfold findGo at hrun
    cases hrun
    exact Or.inl hx
  | cons id rest ih =>
    intro acc res hrun x hx
    unfold findGo at hrun
    cases hm : mapGet db.map id with
    | none => rw [hm] at hrun; cases hrun
    | some doc =>
      rw [hm] at hrun
      by_cases hd : doc.isDel = true
      · simp only [hd, if_true] at hrun
        exact ih _ _ hrun x hx
      · simp only [hd, if_false] at hrun
        cases hq : qMatch doc q with
        | error e => rw [hq] at hrun; cases hrun
        | ok b =>
          rw [hq] at hrun
          cases b with
          | true =>
            rcases ih _ _ hrun x hx with hacc | hlive
            · rcases List.mem_append.mp hacc with h1 | h1
              · exact Or.inl h1
              · simp only [List.mem_singleton] at h1
                subst h1
                exact Or.inr ⟨id, doc, hm, by simpa using hd, rfl⟩
            · exact Or.inr hlive
          | false => exact ih _ _ hrun x hx

theorem updateByIdGo_keeps_del (u : Val) (proj : Option (List String)) (id : String)
    (doc : Doc) (hdel : doc.isDel = true) (ids : List String) :
    ∀ db acc, mapGet db.map id = some doc →
      mapGet (updateByIdGo u proj db acc ids).1.map id = some doc := by
  induction ids with
  | nil => intro db acc hm; exact hm
  | cons i rest ih =>
    intro db acc hm
    unfold updateByIdGo
    by_cases hid : (!isId i) = true
    · simp only [hid, if_true]; exact hm
    · simp only [hid, if_false]
      cases hmi : mapGet db.map i with
      | none => exact ih _ _ hm
      | some di =>
        by_cases hd : di.isDel = true
        · simp only [hd, if_true]; exact ih _ _ hm
        · simp only [hd, if_false]
          have hne : id ≠ i := by
            intro hc
            subst hc
            rw [hm] at hmi
            cases hmi
            exact hd hdel
          cases hstep : updStep db u proj i di acc with
          | error e => exact hm
          | ok p =>
            refine ih _ _ ?_
            have hup : p.1.map = mapSet db.map i (setField
                (match updNewDoc di u with | .ok nd => nd | .error _ => di) "_id" (.str i)) := by
              unfold updStep at hstep
              cases hnd : updNewDoc di u with
              | error e => rw [hnd] at hstep; cases hstep
              | ok nd =>
                rw [hnd] at hstep
                simp only [Except.ok.injEq] at hstep
                rw [← hstep]
            rw [hup, mapGet_mapSet_ne _ _ _ _ hne]
            exact hm

theorem updateGo_keeps_del (q u : Val) (proj : Option (List String)) (id : String)
    (doc : Doc) (hdel : doc.isDel = true) (ids : List String) :
    ∀ db acc, mapGet db.map id = some doc →
      mapGet (updateGo q u proj db acc ids).1.map id = some doc := by
  induction ids with
  | nil => intro db acc hm; exact hm
  | cons i rest ih =>
    intro db acc hm
    unfold updateGo
    cases hmi : mapGet db.map i with
    | none => exact hm
    | some di =>
      by_cases hd : di.isDel = true
      · simp only [hd, if_true]; exact ih _ _ hm
      · simp only [hd, if_false]
        cases hq : qMatch di q with
        | error e => exact hm
        | ok b =>
          cases b with
          | false => exact ih _ _ hm
          | true =>
            have hne : id ≠ i := by
              intro hc
              subst hc
              rw [hm] at hmi
              cases hmi
              exact hd hdel
            cases hstep : updStep db u proj i di acc with
            | error e => exact hm
            | ok p =>
              refine ih _ _ ?_
              have hup : p.1.map = mapSet db.map i (setField
                  (match updNewDoc di u with | .ok nd => nd | .error _ => di) "_id" (.str i)) := by
                unfold updStep at hstep
                cases hnd : updNewDoc di u with
                | error e => rw [hnd] at hstep; cases hstep
                | ok nd =>
                  rw [hnd] at hstep
                  simp only [Except.ok.injEq] at hstep
                  rw [← hstep]
              rw [hup, mapGet_mapSet_ne _ _ _ _ hne]
              exact hm

theorem deleteByIdGo_keeps_del (id : String) (doc : Doc) (hdel : doc.isDel = true)
    (ids : List String) :
    ∀ db count, mapGet db.map id = some doc →
      mapGet (deleteByIdGo db count ids).1.map id = some doc := by
  induction ids with
  | nil => intro db count hm; exact hm
  | cons i rest ih =>
    intro db count hm
    unfold deleteByIdGo
    by_cases hid : (!isId i) = true
    · simp only [hid, if_true]; exact hm
    · simp only [hid, if_false]
      cases hmi : mapGet db.map i with
      | none => exact ih _ _ hm
      | some di =>
        by_cases hd : (!di.isDel) = true
        · simp only [hd, if_true]
          have hne : id ≠ i := by
            intro hc
            subst hc
            rw [hm] at hmi
            cases hmi
            simp [hdel] at hd
          refine ih _ _ ?_
          rw [mapGet_mapSet_ne _ _ _ _ hne]
          exact hm
        · simp only [hd, if_false]; exact ih _ _ hm

theorem deleteGo_keeps_del (q : Val) (id : String) (doc : Doc) (hdel : doc.isDel = true)
    (ids : List String) :
    ∀ db count, mapGet db.map id = some doc →
      mapGet (deleteGo q db count ids).1.map id = some doc := by
  induction ids with
  | nil => intro db count hm; exact hm
  | cons i rest ih =>
    intro db count hm
    unfold deleteGo
    cases hmi : mapGet db.map i with
    | none => exact hm
    | some di =>
      by_cases hd : di.isDel = true
      · simp only [hd, if_true]; exact ih _ _ hm
      · simp only [hd, if_false]
        cases hq : qMatch di q with
        | error e => exact hm
        | ok b =>
          cases b with
          | false => exact ih _ _ hm
          | true =>
            have hne : id ≠ i := by
              intro hc
              subst hc
              rw [hm] at hmi
              cases hmi
              exact hd hdel
            refine ih _ _ ?_
            rw [mapGet_mapSet_ne _ _ _ _ hne]
            exact hm

/-! ## Identifier preservation lemmas (claim C6) -/

theorem updStep_map (db : DB) (u : Val) (proj : Option (List String)) (i : String)
    (di : Doc) (acc : List Doc) (p : DB × List Doc)
    (hstep : updStep db u proj i di acc = .ok p) :
    ∃ nd, updNewDoc di u = .ok nd ∧
      p.1.map = mapSet db.map i (setField nd "_id" (.str i)) ∧
      p.1.list = db.list := by
  unfold updStep at hstep
  cases hnd : updNewDoc di u with
  | error e => rw [hnd] at hstep; cases hstep
  | ok nd =>
    rw [hnd] at hstep
    simp only [Except.ok.injEq] at hstep
    exact ⟨nd, rfl, by rw [← hstep], by rw [← hstep]⟩

theorem updateByIdGo_keepsId (u : Val) (proj : Option (List String)) (id : String)
    (ids : List String) :
    ∀ db acc, (∀ d0, mapGet db.map id = some d0 → docId d0 = some id) →
      ∀ d1, mapGet (updateByIdGo u proj db acc ids).1.map id = some d1 →
        docId d1 = some id := by
  induction ids with
  | nil => intro db acc hpre d1 h1; exact hpre d1 h1
  | cons i rest ih =>
    intro db acc hpre d1 h1
    unfold updateByIdGo at h1
    by_cases hid : (!isId i) = true
    · simp only [hid, if_true] at h1; exact hpre d1 h1
    · simp only [hid, if_false] at h1
      cases hmi : mapGet db.map i with
      | none => rw [hmi] at h1; exact ih _ _ hpre d1 h1
      | some di =>
        rw [hmi] at h1
        by_cases hd : di.isDel = true
        · simp only [hd, if_true] at h1; exact ih _ _ hpre d1 h1
        · simp only [hd, if_false] at h1
          cases hstep : updStep db u proj i di acc with
          | error e => rw [hstep] at h1; exact hpre d1 h1
          | ok p =>
            rw [hstep] at h1
            obtain ⟨nd, -, hmap, -⟩ := updStep_map db u proj i di acc p hstep
            refine ih p.1 p.2 ?_ d1 h1
            intro d0 h0
            rw [hmap] at h0
            by_cases hii : id = i
            · subst hii
              rw [mapGet_mapSet_self] at h0
              cases h0
              exact docId_setField_id nd id
            · rw [mapGet_mapSet_ne _ _ _ _ hii] at h0
              exact hpre d0 h0

theorem updateGo_keepsId (q u : Val) (proj : Option (List String)) (id : String)
    (ids : List String) :
    ∀ db acc, (∀ d0, mapGet db.map id = some d0 → docId d0 = some id) →
      ∀ d1, mapGet (updateGo q u proj db acc ids).1.map id = some d1 →
        docId d1 = some id := by
  induction ids with
  | nil => intro db acc hpre d1 h1; exact hpre d1 h1
  | cons i rest ih =>
    intro db acc hpre d1 h1
    unfold updateGo at h1
    cases hmi : mapGet db.map i with
    | none => rw [hmi] at h1; exact hpre d1 h1
    | some di =>
      rw [hmi] at h1
      by_cases hd : di.isDel = true
      · simp only [hd, if_true] at h1; exact ih _ _ hpre d1 h1
      · simp only [hd, if_false] at h1
        cases hq : qMatch di q with
        | error e => rw [hq] at h1; exact hpre d1 h1
        | ok b =>
          rw [hq] at h1
          cases b with
          | false => exact ih _ _ hpre d1 h1
          | true =>
            cases hstep : updStep db u proj i di acc with
            | error e => rw [hstep] at h1; exact hpre d1 h1
            | ok p =>
              rw [hstep] at h1
              obtain ⟨nd, -, hmap, -⟩ := updStep_map db u proj i di acc p hstep
              refine ih p.1 p.2 ?_ d1 h1
              intro d0 h0
              rw [hmap] at h0
              by_cases hii : id = i
              · subst hii
                rw [mapGet_mapSet_self] at h0
                cases h0
                exact docId_setField_id nd id
              · rw [mapGet_mapSet_ne _ _ _ _ hii] at h0
                exact hpre d0 h0

/-! ## Delete counting lemmas (claim C8) -/

/-- The identifier refers to a live (present, non-tombstoned) entry. -/
def liveAt (m : List (String × Doc)) (id : String) : Bool :=
  match mapGet m id with
  | some d => !d.isDel
  | none => false

/-- The identifier refers to a live entry that matches the query. -/
def matchesLive (m : List (String × Doc)) (q : Val) (id : String) : Bool :=
  match mapGet m id with
  | some d =>
    if d.isDel then false
    else
      match qMatch d q with
      | .ok true => true
      | _ => false
  | none => false

theorem matchesLive_mapSet_ne (m : List (String × Doc)) (q : Val) (i x : String)
    (d : Doc) (h : x ≠ i) : matchesLive (mapSet m i d) q x = matchesLive m q x := by
  unfold matchesLive
  rw [mapGet_mapSet_ne _ _ _ _ h]

theorem liveAt_mapSet_ne (m : List (String × Doc)) (i x : String) (d : Doc)
    (h : x ≠ i) : liveAt (mapSet m i d) x = liveAt m x := by
  unfold liveAt
  rw [mapGet_mapSet_ne _ _ _ _ h]

theorem deleteGo_spec (q : Val) (ids : List String) :
    ∀ db count db' n, ids.Nodup → deleteGo q db count ids = (db', .ok n) →
      (n = count + (ids.filter fun i => matchesLive db.map q i).length ∧
        ∀ id d0, mapGet db.map id = some d0 →
          mapGet db'.map id =
            some (if id ∈ ids ∧ matchesLive db.map q id = true
              then setField d0 "$deleted" (.bool true) else d0)) := by
  induction ids with
  | nil =>
    intro db count db' n hnd hrun
    unfold deleteGo at hrun
    simp only [Prod.mk.injEq, Except.ok.injEq] at hrun
    obtain ⟨hdb, hn⟩ := hrun
    subst hdb
    subst hn
    refine ⟨by simp, fun id d0 h0 => ?_⟩
    rw [if_neg (fun hc => List.not_mem_nil id hc.1)]
    exact h0
  | cons i rest ih =>
    intro db count db' n hnd hrun
    rw [List.nodup_cons] at hnd
    obtain ⟨hni, hndr⟩ := hnd
    unfold deleteGo at hrun
    cases hmi : mapGet db.map i with
    | none =>
      rw [hmi] at hrun
      simp only [Prod.mk.injEq] at hrun
      cases hrun.2
    | some di =>
      rw [hmi] at hrun
      by_cases hd : di.isDel = true
      · simp only [hd, if_true] at hrun
        have hml : matchesLive db.map q i = false := by
          unfold matchesLive
          rw [hmi]
          simp [hd]
        obtain ⟨hcount, hpt⟩ := ih db count db' n hndr hrun
        constructor
        · rw [hcount]
          simp only [List.filter_cons, hml, Bool.false_eq_true, if_false]
        · intro id d0 h0
          rw [hpt id d0 h0]
          by_cases hii : id = i
          · subst hii
            rw [if_neg (fun hc => hni hc.1),
              if_neg (fun hc => Bool.noConfusion (hml ▸ hc.2))]
          · have hmemiff : (id ∈ i :: rest) ↔ (id ∈ rest) := by
              rw [List.mem_cons]
              exact ⟨fun h => h.resolve_left hii, Or.inr⟩
            rw [if_congr (Iff.and hmemiff Iff.rfl) rfl rfl]
      · simp only [hd, Bool.false_eq_true, if_false] at hrun
        cases hq : qMatch di q with
        | error e =>
          rw [hq] at hrun
          simp only [Prod.mk.injEq] at hrun
          cases hrun.2
        | ok b =>
          rw [hq] at hrun
          cases b with
          | false =>
            have hml : matchesLive db.map q i = false := by
              unfold matchesLive
              rw [hmi]
              simp [hd, hq]
            obtain ⟨hcount, hpt⟩ := ih db count db' n hndr hrun
            constructor
            · rw [hcount]
              simp only [List.filter_cons, hml, Bool.false_eq_true, if_false]
            · intro id d0 h0
              rw [hpt id d0 h0]
              by_cases hii : id = i
              · subst hii
                rw [if_neg (fun hc => hni hc.1),
                  if_neg (fun hc => Bool.noConfusion (hml ▸ hc.2))]
              · have hmemiff : (id ∈ i :: rest) ↔ (id ∈ rest) := by
                  rw [List.mem_cons]
                  exact ⟨fun h => h.resolve_left hii, Or.inr⟩
                rw [if_congr (Iff.and hmemiff Iff.rfl) rfl rfl]
          | true =>
            have hml : matchesLive db.map q i = true := by
              unfold matchesLive
              rw [hmi]
              simp [hd, hq]
            set db2 : DB := { db with
              map := mapSet db.map i (setField di "$deleted" (.bool true)) } with hdb2
            have hdb2m : db2.map = mapSet db.map i (setField di "$deleted" (.bool true)) := by
              rw [hdb2]
            obtain ⟨hcount, hpt⟩ := ih db2 (count + 1) db' n hndr hrun
            have hmlrest : ∀ x ∈ rest, matchesLive db2.map q x = matchesLive db.map q x := by
              intro x hx
              rw [hdb2m]
              exact matchesLive_mapSet_ne _ _ _ _ _ (fun hc => hni (hc ▸ hx))
            have hfeq : List.filter (fun x => matchesLive db2.map q x) rest
                = List.filter (fun x => matchesLive db.map q x) rest :=
              List.filter_congr hmlrest
            constructor
            · rw [hcount, hfeq]
              simp only [List.filter_cons, hml, if_true, List.length_cons]
              omega
            · intro id d0 h0
              by_cases hii : id = i
              · subst hii
                rw [hmi] at h0
                cases h0
                have h2 : mapGet db2.map id = some (setField di "$deleted" (.bool true)) := by
                  rw [hdb2m]
                  exact mapGet_mapSet_self _ _ _
                rw [hpt id _ h2]
                rw [if_neg (fun hc => hni hc.1), if_pos ⟨List.mem_cons_self id rest, hml⟩]
              · have h2 : mapGet db2.map id = some d0 := by
                  rw [hdb2m, mapGet_mapSet_ne _ _ _ _ hii]
                  exact h0
                rw [hpt id d0 h2]
                have hml2 : matchesLive db2.map q id = matchesLive db.map q id := by
                  rw [hdb2m]
                  exact matchesLive_mapSet_ne _ _ _ _ _ hii
                rw [hml2]
                have hmemiff : (id ∈ i :: rest) ↔ (id ∈ rest) := by
                  rw [List.mem_cons]
                  exact ⟨fun h => h.resolve_left hii, Or.inr⟩
                rw [if_congr (Iff.and hmemiff Iff.rfl) rfl rfl]

theorem deleteByIdGo_spec (ids : List String) :
    ∀ db count db' n, ids.Nodup → deleteByIdGo db count ids = (db', .ok n) →
      (n = count + (ids.filter fun i => liveAt db.map i).length ∧
        ∀ id d0, mapGet db.map id = some d0 →
          mapGet db'.map id =
            some (if id ∈ ids ∧ liveAt db.map id = true
              then setField d0 "$deleted" (.bool true) else d0)) := by
  induction ids with
  | nil =>
    intro db count db' n hnd hrun
    unfold deleteByIdGo at hrun
    simp only [Prod.mk.injEq, Except.ok.injEq] at hrun
    obtain ⟨hdb, hn⟩ := hrun
    subst hdb
    subst hn
    refine ⟨by simp, fun id d0 h0 => ?_⟩
    rw [if_neg (fun hc => List.not_mem_nil id hc.1)]
    exact h0
  | cons i rest ih =>
    intro db count db' n hnd hrun
    rw [List.nodup_cons] at hnd
    obtain ⟨hni, hndr⟩ := hnd
    unfold deleteByIdGo at hrun
    by_cases hid : (!isId i) = true
    · simp only [hid, if_true] at hrun
      simp only [Prod.mk.injEq] at hrun
      cases hrun.2
    · simp only [hid, Bool.false_eq_true, if_false] at hrun
      cases hmi : mapGet db.map i with
      | none =>
        rw [hmi] at hrun
        have hlv : liveAt db.map i = false := by
          unfold liveAt
          rw [hmi]
        obtain ⟨hcount, hpt⟩ := ih db count db' n hndr hrun
        constructor
        · rw [hcount]
          simp only [List.filter_cons, hlv, Bool.false_eq_true, if_false]
        · intro id d0 h0
          rw [hpt id d0 h0]
          by_cases hii : id = i
          · subst hii
            rw [if_neg (fun hc => hni hc.1),
              if_neg (fun hc => Bool.noConfusion (hlv ▸ hc.2))]
          · have hmemiff : (id ∈ i :: rest) ↔ (id ∈ rest) := by
              rw [List.mem_cons]
              exact ⟨fun h => h.resolve_left hii, Or.inr⟩
            rw [if_congr (Iff.and hmemiff Iff.rfl) rfl rfl]
      | some di =>
        rw [hmi] at hrun
        by_cases hd : (!di.isDel) = true
        · simp only [hd, if_true] at hrun
          have hlv : liveAt db.map i = true := by
            unfold liveAt
            rw [hmi]
            exact hd
          set db2 : DB := { db with
            map := mapSet db.map i (setField di "$deleted" (.bool true)) } with hdb2
          have hdb2m : db2.map = mapSet db.map i (setField di "$deleted" (.bool true)) := by
            rw [hdb2]
          obtain ⟨hcount, hpt⟩ := ih db2 (count + 1) db' n hndr hrun
          have hlvrest : ∀ x ∈ rest, liveAt db2.map x = liveAt db.map x := by
            intro x hx
            rw [hdb2m]
            exact liveAt_mapSet_ne _ _ _ _ (fun hc => hni (hc ▸ hx))
          have hfeq : List.filter (fun x => liveAt db2.map x) rest
              = List.filter (fun x => liveAt db.map x) rest :=
            List.filter_congr hlvrest
          constructor
          · rw [hcount, hfeq]
            simp only [List.filter_cons, hlv, if_true, List.length_cons]
            omega
          · intro id d0 h0
            by_cases hii : id = i
            · subst hii
              rw [hmi] at h0
              cases h0
              have h2 : mapGet db2.map id = some (setField di "$deleted" (.bool true)) := by
                rw [hdb2m]
                exact mapGet_mapSet_self _ _ _
              rw [hpt id _ h2]
              rw [if_neg (fun hc => hni hc.1), if_pos ⟨List.mem_cons_self id rest, hlv⟩]
            · have h2 : mapGet db2.map id = some d0 := by
                rw [hdb2m, mapGet_mapSet_ne _ _ _ _ hii]
                exact h0
              rw [hpt id d0 h2]
              have hlv2 : liveAt db2.map id = liveAt db.map id := by
                rw [hdb2m]
                exact liveAt_mapSet_ne _ _ _ _ hii
              rw [hlv2]
              have hmemiff : (id ∈ i :: rest) ↔ (id ∈ rest) := by
                rw [List.mem_cons]
                exact ⟨fun h => h.resolve_left hii, Or.inr⟩
              rw [if_congr (Iff.and hmemiff Iff.rfl) rfl rfl]
        · simp only [hd, Bool.false_eq_true, if_false] at hrun
          have hlv : liveAt db.map i = false := by
            unfold liveAt
            rw [hmi]
            simpa using hd
          obtain ⟨hcount, hpt⟩ := ih db count db' n hndr hrun
          constructor
          · rw [hcount]
            simp only [List.filter_cons, hlv, Bool.false_eq_true, if_false]
          · intro id d0 h0
            rw [hpt id d0 h0]
            by_cases hii : id = i
            · subst hii
              rw [if_neg (fun hc => hni hc.1),
                if_neg (fun hc => Bool.noConfusion (hlv ▸ hc.2))]
            · have hmemiff : (id ∈ i :: rest) ↔ (id ∈ rest) := by
                rw [List.mem_cons]
                exact ⟨fun h => h.resolve_left hii, Or.inr⟩
              rw [if_congr (Iff.and hmemiff Iff.rfl) rfl rfl]

/-! ## Persist output lemmas (claims C2 and C3) -/

/-- The lines `persist` writes: one serialized line per listed,
present, non-tombstoned document, in stored order. -/
def persistLines (m : List (String × Doc)) (ids : List String) : List String :=
  ids.filterMap fun id =>
    match mapGet m id with
    | some doc => if doc.isDel then none else some (stringifyVal (.obj doc))
    | none => none

theorem persistGo_allPresent (ids : List String) :
    ∀ db acc, (∀ id ∈ ids, (mapGet db.map id).isSome = true) →
      persistGo db acc ids = (db, .ok (joinNl (acc ++ persistLines db.map ids))) := by
  induction ids with
  | nil =>
    intro db acc hpres
    unfold persistGo
    simp [persistLines]
  | cons id rest ih =>
    intro db acc hpres
    unfold persistGo
    cases hmi : mapGet db.map id with
    | none =>
      have := hpres id (List.mem_cons_self id rest)
      rw [hmi] at this
      cases this
    | some doc =>
      have hpl : persistLines db.map (id :: rest) =
          (if doc.isDel then [] else [stringifyVal (.obj doc)]) ++ persistLines db.map rest := by
        unfold persistLines
        rw [List.filterMap_cons]
        rw [hmi]
        by_cases hd : doc.isDel = true
        · simp only [hd, if_true]
          rw [List.nil_append]
        · simp only [hd, Bool.false_eq_true, if_false]
          rw [List.singleton_append]
      by_cases hd : doc.isDel = true
      · simp only [hd, if_true]
        rw [ih db acc (fun i hi => hpres i (List.mem_cons_of_mem id hi)), hpl]
        simp [hd]
      · simp only [hd, Bool.false_eq_true, if_false]
        rw [ih db (acc ++ [stringifyVal (.obj doc)])
          (fun i hi => hpres i (List.mem_cons_of_mem id hi)), hpl]
        simp only [hd, Bool.false_eq_true, if_false, List.append_assoc,
          List.singleton_append]

theorem contains_cons_ne (i x : String) (rest : List String) (h : x ≠ i) :
    (i :: rest).contains x = rest.contains x := by
  by_cases hm : x ∈ rest
  · have h1 : rest.contains x = true := by simpa using hm
    have h2 : (i :: rest).contains x = true := by
      have hx : x ∈ i :: rest := List.mem_cons_of_mem i hm
      simpa using hx
    rw [h1, h2]
  · have h1 : rest.contains x = false := by
      rw [Bool.eq_false_iff]
      intro hc
      exact hm (by simpa using hc)
    have h2 : (i :: rest).contains x = false := by
      rw [Bool.eq_false_iff]
      intro hc
      have hx : x ∈ i :: rest := by simpa using hc
      rcases List.mem_cons.mp hx with rfl | hx2
      · exact h rfl
      · exact hm hx2
    rw [h1, h2]

theorem persistGo_lenient (ids : List String) :
    ∀ db acc, db.strict = false →
      persistGo db acc ids =
        ({ db with
            list := db.list.filter fun x => !(ids.contains x && (mapGet db.map x).isNone) },
          .ok (joinNl (acc ++ persistLines db.map ids))) := by
  induction ids with
  | nil =>
    intro db acc hstrict
    unfold persistGo
    have hfe : (db.list.filter fun x =>
        !(([] : List String).contains x && (mapGet db.map x).isNone)) = db.list :=
      List.filter_eq_self.mpr fun a _ => rfl
    rw [hfe]
    have hpe : persistLines db.map [] = [] := rfl
    rw [hpe, List.append_nil]
  | cons id rest ih =>
    intro db acc hstrict
    unfold persistGo
    cases hmi : mapGet db.map id with
    | none =>
      have hsf : (db.strict = true) = False := by
        rw [hstrict]
        simp
      simp only [hsf, if_false]
      have hmd : mapDel db.map id = db.map := mapDel_of_none db.map id hmi
      have hstep : ({ db with list := listDel db.list id, map := mapDel db.map id } : DB)
          = { db with list := listDel db.list id } := by
        rw [hmd]
      rw [hstep]
      rw [ih { db with list := listDel db.list id } acc hstrict]
      have hpl : persistLines db.map (id :: rest) = persistLines db.map rest := by
        unfold persistLines
        rw [List.filterMap_cons, hmi]
      have hfl : (listDel db.list id).filter
            (fun x => !(rest.contains x && (mapGet db.map x).isNone))
          = db.list.filter
            (fun x => !((id :: rest).contains x && (mapGet db.map x).isNone)) := by
        unfold listDel
        rw [List.filter_filter]
        refine List.filter_congr fun x hx => ?_
        by_cases hxi : x = id
        · subst hxi
          rw [hmi]
          have hc : (x :: rest).contains x = true := by
            have : x ∈ x :: rest := List.mem_cons_self x rest
            simpa using this
          rw [hc]
          simp
        · rw [contains_cons_ne id x rest hxi]
          have hbne : (x != id) = true := by simpa using hxi
          rw [hbne]
          rw [Bool.and_true]
      rw [hfl, hpl]
    | some doc =>
      have hpl : persistLines db.map (id :: rest) =
          (if doc.isDel then [] else [stringifyVal (.obj doc)]) ++ persistLines db.map rest := by
        unfold persistLines
        rw [List.filterMap_cons, hmi]
        by_cases hd : doc.isDel = true
        · simp only [hd, if_true]
          rw [List.nil_append]
        · simp only [hd, Bool.false_eq_true, if_false]
          rw [List.singleton_append]
      have hfl : (db.list.filter fun x => !(rest.contains x && (mapGet db.map x).isNone))
          = db.list.filter fun x => !((id :: rest).contains x && (mapGet db.map x).isNone) := by
        refine List.filter_congr fun x hx => ?_
        by_cases hxi : x = id
        · subst hxi
          rw [hmi]
          simp
        · rw [contains_cons_ne id x rest hxi]
      by_cases hd : doc.isDel = true
      · simp only [hd, if_true]
        rw [ih db acc hstrict, hfl, hpl]
        simp only [hd, if_true, List.nil_append]
      · simp only [hd, Bool.false_eq_true, if_false]
        rw [ih db (acc ++ [stringifyVal (.obj doc)]) hstrict, hfl, hpl]
        simp only [hd, Bool.false_eq_true, if_false, List.append_assoc,
          List.singleton_append]

/-! ## Newline split/join lemmas (claims C3, C4, C10) -/

theorem splitCh_cons (sep c : Char) (cs : List Char) :
    splitCh sep (c :: cs) =
      if c == sep then [] :: splitCh sep cs
      else
        match splitCh sep cs with
        | s :: ss => (c :: s) :: ss
        | [] => [[c]] := by
  conv_lhs => rw [splitCh]
  cases hsb : splitCh sep cs <;> cases hcb : c == sep <;> simp [hcb]

theorem splitCh_ne_nil (sep : Char) (l : List Char) : splitCh sep l ≠ [] := by
  cases l with
  | nil => intro h; cases h
  | cons c cs =>
    rw [splitCh_cons]
    by_cases hcb : (c == sep) = true
    · simp [hcb]
    · simp only [hcb, Bool.false_eq_true, if_false]
      cases hsb : splitCh sep cs with
      | nil => intro h; cases h
      | cons s ss => intro h; cases h

theorem splitCh_no_sep (sep : Char) (l : List Char) (h : sep ∉ l) :
    splitCh sep l = [l] := by
  induction l with
  | nil => rfl
  | cons c cs ih =>
    have hc : c ≠ sep := fun hc => h (hc ▸ List.mem_cons_self c cs)
    have hcs : sep ∉ cs := fun hm => h (List.mem_cons_of_mem c hm)
    have hb : (c == sep) = false := beq_eq_false_iff_ne.mpr hc
    rw [splitCh_cons, ih hcs]
    simp only [hb, Bool.false_eq_true, if_false]

theorem splitCh_append (sep : Char) (a b : List Char) (h : sep ∉ a) :
    splitCh sep (a ++ sep :: b) = a :: splitCh sep b := by
  induction a with
  | nil =>
    rw [List.nil_append, splitCh_cons]
    have hb : (sep == sep) = true := beq_self_eq_true sep
    simp only [hb, if_true]
  | cons c cs ih =>
    have hc : c ≠ sep := fun hc => h (hc ▸ List.mem_cons_self c cs)
    have hcs : sep ∉ cs := fun hm => h (List.mem_cons_of_mem c hm)
    have hb : (c == sep) = false := beq_eq_false_iff_ne.mpr hc
    have hstep : (c :: cs) ++ sep :: b = c :: (cs ++ sep :: b) := rfl
    rw [hstep, splitCh_cons, ih hcs]
    simp only [hb, Bool.false_eq_true, if_false]

theorem toList_append (a b : String) : (a ++ b).toList = a.toList ++ b.toList := by
  cases a with
  | mk da =>
    cases b with
    | mk db => rfl

theorem splitNl_single (s : String) (h : '\n' ∉ s.toList) : splitNl s = [s] := by
  unfold splitNl
  rw [splitCh_no_sep _ _ h]
  cases s with
  | mk data => rfl

theorem splitNl_append (a b : String) (h : '\n' ∉ a.toList) :
    splitNl (a ++ "\n" ++ b) = a :: splitNl b := by
  unfold splitNl
  have hl : (a ++ "\n" ++ b).toList = a.toList ++ '\n' :: b.toList := by
    rw [toList_append, toList_append, List.append_assoc]
    rfl
  rw [hl, splitCh_append _ _ _ h]
  cases a with
  | mk data =>
    rw [List.map_cons]
    rfl

theorem splitNl_joinNl (ls : List String) (hne : ls ≠ [])
    (h : ∀ l ∈ ls, '\n' ∉ l.toList) : splitNl (joinNl ls) = ls := by
  induction ls with
  | nil => exact absurd rfl hne
  | cons x rest ih =>
    cases rest with
    | nil =>
      unfold joinNl
      exact splitNl_single x (h x (List.mem_cons_self x []))
    | cons y rest' =>
      show splitNl (x ++ "\n" ++ joinNl (y :: rest')) = x :: (y :: rest')
      rw [splitNl_append _ _ (h x (List.mem_cons_self x (y :: rest')))]
      rw [ih (by intro hc; cases hc) (fun l hl => h l (List.mem_cons_of_mem x hl))]

/-! ## Load characterization lemmas (claims C3, C4, C10) -/

/-- A raw line is corrupt: it fails to parse, parses to a non-object,
or fails document-shape validation. -/
def corruptLine (l : String) : Bool :=
  match parseJson l with
  | some (.obj fs) => !(isValidDoc fs true)
  | some _ => true
  | none => true

theorem docId_isSome_of_valid (fs : Doc) (h : isValidDoc fs true = true) :
    ∃ id, docId fs = some id := by
  unfold isValidDoc at h
  rw [Bool.and_eq_true] at h
  obtain ⟨-, h2⟩ := h
  unfold docId
  cases hg : getField fs "_id" with
  | none => rw [hg] at h2; cases h2
  | some v =>
    rw [hg] at h2
    cases v with
    | str s => exact ⟨s, rfl⟩
    | null => cases h2
    | bool b => cases h2
    | num n => cases h2
    | arr xs => cases h2
    | obj fs2 => cases h2

theorem loadLines_corrupted (lines : List String) :
    ∀ db corrupted, db.strict = false →
      (loadLines db corrupted lines).2 =
        .ok (corrupted ++ lines.filter fun l => !l.isEmpty && corruptLine l) := by
  induction lines with
  | nil =>
    intro db corrupted hstrict
    unfold loadLines
    rw [List.filter_nil, List.append_nil]
  | cons line rest ih =>
    intro db corrupted hstrict
    unfold loadLines
    by_cases he : line.isEmpty = true
    · simp only [he, if_true]
      rw [ih db corrupted hstrict]
      have hf : (line :: rest).filter (fun l => !l.isEmpty && corruptLine l)
          = rest.filter fun l => !l.isEmpty && corruptLine l := by
        rw [List.filter_cons]
        simp [he]
      rw [hf]
    · simp only [he, Bool.false_eq_true, if_false]
      have hne : (!line.isEmpty) = true := by simp [he]
      cases hp : parseJson line with
      | some v =>
        cases v with
        | obj fs =>
          by_cases hval : isValidDoc fs true = true
          · -- well-formed line: inserted, not collected
            have hcl : corruptLine line = false := by
              unfold corruptLine
              rw [hp]
              simp [hval]
            have hf : (line :: rest).filter (fun l => !l.isEmpty && corruptLine l)
                = rest.filter fun l => !l.isEmpty && corruptLine l := by
              rw [List.filter_cons]
              simp [hcl]
            simp only [hval, if_true]
            obtain ⟨id, hid⟩ := docId_isSome_of_valid fs hval
            simp only [hid]
            have ihh := ih { db with list := listAdd db.list id, map := mapSet db.map id fs }
              corrupted hstrict
            rw [ihh, hf]
          · have hcl : corruptLine line = true := by
              unfold corruptLine
              rw [hp]
              simp [hval]
            have hf : (line :: rest).filter (fun l => !l.isEmpty && corruptLine l)
                = line :: rest.filter fun l => !l.isEmpty && corruptLine l := by
              rw [List.filter_cons]
              simp [hcl, hne]
            have hsf : (db.strict = true) = False := by rw [hstrict]; simp
            simp only [hval, hsf, Bool.false_eq_true, if_false]
            rw [ih db (corrupted ++ [line]) hstrict, hf]
            rw [List.append_assoc]
            rfl
        | null =>
          have hcl : corruptLine line = true := by
            unfold corruptLine
            rw [hp]
          have hf : (line :: rest).filter (fun l => !l.isEmpty && corruptLine l)
              = line :: rest.filter fun l => !l.isEmpty && corruptLine l := by
            rw [List.filter_cons]
            simp [hcl, hne]
          have hsf : (db.strict = true) = False := by rw [hstrict]; simp
          simp only [hsf, if_false]
          rw [ih db (corrupted ++ [line]) hstrict, hf, List.append_assoc]
          rfl
        | bool b =>
          have hcl : corruptLine line = true := by
            unfold corruptLine
            rw [hp]
          have hf : (line :: rest).filter (fun l => !l.isEmpty && corruptLine l)
              = line :: rest.filter fun l => !l.isEmpty && corruptLine l := by
            rw [List.filter_cons]
            simp [hcl, hne]
          have hsf : (db.strict = true) = False := by rw [hstrict]; simp
          simp only [hsf, if_false]
          rw [ih db (corrupted ++ [line]) hstrict, hf, List.append_assoc]
          rfl
        | num n =>
          have hcl : corruptLine line = true := by
            unfold corruptLine
            rw [hp]
          have hf : (line :: rest).filter (fun l => !l.isEmpty && corruptLine l)
              = line :: rest.filter fun l => !l.isEmpty && corruptLine l := by
            rw [List.filter_cons]
            simp [hcl, hne]
          have hsf : (db.strict = true) = False := by rw [hstrict]; simp
          simp only [hsf, if_false]
          rw [ih db (corrupted ++ [line]) hstrict, hf, List.append_assoc]
          rfl
        | str str =>
          have hcl : corruptLine line = true := by
            unfold corruptLine
            rw [hp]
          have hf : (line :: rest).filter (fun l => !l.isEmpty && corruptLine l)
              = line :: rest.filter fun l => !l.isEmpty && corruptLine l := by
            rw [List.filter_cons]
            simp [hcl, hne]
          have hsf : (db.strict = true) = False := by rw [hstrict]; simp
          simp only [hsf, if_false]
          rw [ih db (corrupted ++ [line]) hstrict, hf, List.append_assoc]
          rfl
        | arr xs =>
          have hcl : corruptLine line = true := by
            unfold corruptLine
            rw [hp]
          have hf : (line :: rest).filter (fun l => !l.isEmpty && corruptLine l)
              = line :: rest.filter fun l => !l.isEmpty && corruptLine l := by
            rw [List.filter_cons]
            simp [hcl, hne]
          have hsf : (db.strict = true) = False := by rw [hstrict]; simp
          simp only [hsf, if_false]
          rw [ih db (corrupted ++ [line]) hstrict, hf, List.append_assoc]
          rfl
      | none =>
        have hcl : corruptLine line = true := by
          unfold corruptLine
          rw [hp]
        have hf : (line :: rest).filter (fun l => !l.isEmpty && corruptLine l)
            = line :: rest.filter fun l => !l.isEmpty && corruptLine l := by
          rw [List.filter_cons]
          simp [hcl, hne]
        have hsf : (db.strict = true) = False := by rw [hstrict]; simp
        simp only [hsf, if_false]
        rw [ih db (corrupted ++ [line]) hstrict, hf, List.append_assoc]
        rfl

theorem loadLines_list_mono (lines : List String) :
    ∀ db corrupted x, x ∈ db.list → x ∈ (loadLines db corrupted lines).1.list := by
  induction lines with
  | nil => intro db corrupted x hx; exact hx
  | cons line rest ih =>
    intro db corrupted x hx
    unfold loadLines
    by_cases he : line.isEmpty = true
    · simp only [he, if_true]
      exact ih _ _ _ hx
    · simp only [he, Bool.false_eq_true, if_false]
      cases hp : parseJson line with
      | some v =>
        cases v with
        | obj fs =>
          by_cases hval : isValidDoc fs true = true
          · simp only [hval, if_true]
            cases hdi : docId fs with
            | some id =>
              exact ih _ _ _ ((listAdd_mem db.list id x).mpr (Or.inl hx))
            | none =>
              by_cases hs : db.strict = true
              · simp only [hs, if_true]; exact hx
              · simp only [hs, Bool.false_eq_true, if_false]; exact ih _ _ _ hx
          · simp only [hval, Bool.false_eq_true, if_false]
            by_cases hs : db.strict = true
            · simp only [hs, if_true]; exact hx
            · simp only [hs, Bool.false_eq_true, if_false]; exact ih _ _ _ hx
        | null =>
          by_cases hs : db.strict = true
          · simp only [hs, if_true]; exact hx
          · simp only [hs, Bool.false_eq_true, if_false]; exact ih _ _ _ hx
        | bool b =>
          by_cases hs : db.strict = true
          · simp only [hs, if_true]; exact hx
          · simp only [hs, Bool.false_eq_true, if_false]; exact ih _ _ _ hx
        | num n =>
          by_cases hs : db.strict = true
          · simp only [hs, if_true]; exact hx
          · simp only [hs, Bool.false_eq_true, if_false]; exact ih _ _ _ hx
        | str str =>
          by_cases hs : db.strict = true
          · simp only [hs, if_true]; exact hx
          · simp only [hs, Bool.false_eq_true, if_false]; exact ih _ _ _ hx
        | arr xs =>
          by_cases hs : db.strict = true
          · simp only [hs, if_true]; exact hx
          · simp only [hs, Bool.false_eq_true, if_false]; exact ih _ _ _ hx
      | none =>
        by_cases hs : db.strict = true
        · simp only [hs, if_true]; exact hx
        · simp only [hs, Bool.false_eq_true, if_false]; exact ih _ _ _ hx

theorem loadLines_good_mem (lines : List String) :
    ∀ db corrupted, db.strict = false →
      ∀ l ∈ lines, ∀ fs id, parseJson l = some (.obj fs) → isValidDoc fs true = true →
        docId fs = some id → id ∈ (loadLines db corrupted lines).1.list := by
  induction lines with
  | nil =>
    intro db corrupted hstrict l hl
    cases hl
  | cons line rest ih =>
    intro db corrupted hstrict l hl fs id hp hval hdi
    unfold loadLines
    rcases List.mem_cons.mp hl with rfl | hlr
    · have he : l.isEmpty = false := by
        rw [Bool.eq_false_iff]
        intro hc
        have : l = "" := (String.isEmpty_iff l).mp hc
        rw [this] at hp
        cases hp
      simp only [he, Bool.false_eq_true, if_false]
      rw [hp]
      simp only [hval, if_true]
      rw [hdi]
      exact loadLines_list_mono rest _ corrupted id
        ((listAdd_mem db.list id id).mpr (Or.inr rfl))
    · by_cases he : line.isEmpty = true
      · simp only [he, if_true]
        exact ih _ _ hstrict l hlr fs id hp hval hdi
      · simp only [he, Bool.false_eq_true, if_false]
        cases hp2 : parseJson line with
        | some v =>
          cases v with
          | obj fs2 =>
            by_cases hval2 : isValidDoc fs2 true = true
            · simp only [hval2, if_true]
              cases hdi2 : docId fs2 with
              | some id2 =>
                simp only [hdi2]
                exact ih { db with list := listAdd db.list id2, map := mapSet db.map id2 fs2 }
                  corrupted hstrict l hlr fs id hp hval hdi
              | none =>
                have hsf : (db.strict = true) = False := by rw [hstrict]; simp
                simp only [hsf, if_false]
                exact ih _ _ hstrict l hlr fs id hp hval hdi
            · have hsf : (db.strict = true) = False := by rw [hstrict]; simp
              simp only [hval2, Bool.false_eq_true, hsf, if_false]
              exact ih _ _ hstrict l hlr fs id hp hval hdi
          | null =>
            have hsf : (db.strict = true) = False := by rw [hstrict]; simp
            simp only [hsf, if_false]
            exact ih _ _ hstrict l hlr fs id hp hval hdi
          | bool b =>
            have hsf : (db.strict = true) = False := by rw [hstrict]; simp
            simp only [hsf, if_false]
            exact ih _ _ hstrict l hlr fs id hp hval hdi
          | num n =>
            have hsf : (db.strict = true) = False := by rw [hstrict]; simp
            simp only [hsf, if_false]
            exact ih _ _ hstrict l hlr fs id hp hval hdi
          | str str =>
            have hsf : (db.strict = true) = False := by rw [hstrict]; simp
            simp only [hsf, if_false]
            exact ih _ _ hstrict l hlr fs id hp hval hdi
          | arr xs =>
            have hsf : (db.strict = true) = False := by rw [hstrict]; simp
            simp only [hsf, if_false]
            exact ih _ _ hstrict l hlr fs id hp hval hdi
        | none =>
          have hsf : (db.strict = true) = False := by rw [hstrict]; simp
          simp only [hsf, if_false]
          exact ih _ _ hstrict l hlr fs id hp hval hdi

theorem loadLines_strict_err (lines : List String) :
    ∀ db corrupted, db.strict = true →
      (∃ l ∈ lines, l.isEmpty = false ∧ corruptLine l = true) →
      ∃ e, (loadLines db corrupted lines).2 = .error e := by
  induction lines with
  | nil =>
    intro db corrupted hstrict hbad
    obtain ⟨l, hl, -⟩ := hbad
    cases hl
  | cons line rest ih =>
    intro db corrupted hstrict hbad
    unfold loadLines
    by_cases he : line.isEmpty = true
    · simp only [he, if_true]
      refine ih _ _ hstrict ?_
      obtain ⟨l, hl, hle, hlc⟩ := hbad
      rcases List.mem_cons.mp hl with rfl | hlr
      · rw [he] at hle; cases hle
      · exact ⟨l, hlr, hle, hlc⟩
    · simp only [he, Bool.false_eq_true, if_false]
      cases hp : parseJson line with
      | some v =>
        cases v with
        | obj fs =>
          by_cases hval : isValidDoc fs true = true
          · simp only [hval, if_true]
            obtain ⟨id, hdi⟩ := docId_isSome_of_valid fs hval
            simp only [hdi]
            refine ih _ _ hstrict ?_
            obtain ⟨l, hl, hle, hlc⟩ := hbad
            rcases List.mem_cons.mp hl with rfl | hlr
            · exfalso
              unfold corruptLine at hlc
              rw [hp] at hlc
              simp [hval] at hlc
            · exact ⟨l, hlr, hle, hlc⟩
          · simp only [hval, Bool.false_eq_true, if_false, hstrict, if_true]
            exact ⟨_, rfl⟩
        | null => simp only [hstrict, if_true]; exact ⟨_, rfl⟩
        | bool b => simp only [hstrict, if_true]; exact ⟨_, rfl⟩
        | num n => simp only [hstrict, if_true]; exact ⟨_, rfl⟩
        | str str => simp only [hstrict, if_true]; exact ⟨_, rfl⟩
        | arr xs => simp only [hstrict, if_true]; exact ⟨_, rfl⟩
      | none => simp only [hstrict, if_true]; exact ⟨_, rfl⟩

/-- The index built by restoring a list of (identifier, document)
pairs in order. -/
def loadFold (ds : List (String × Doc)) (db : DB) : DB :=
  ds.foldl (fun acc p =>
    { acc with list := listAdd acc.list p.1, map := mapSet acc.map p.1 p.2 }) db

theorem stringify_obj_ne_empty (fs : List (String × Val)) :
    (stringifyVal (.obj fs)).isEmpty = false := by
  rw [Bool.eq_false_iff]
  intro hc
  have h0 : stringifyVal (.obj fs) = "\x7b" ++ stringifyObj fs ++ "\x7d" := by
    rw [stringifyVal]
  rw [h0] at hc
  have h1 := (String.isEmpty_iff _).mp hc
  have h2 := congrArg String.toList h1
  rw [toList_append, toList_append] at h2
  cases h2

theorem loadLines_good (ds : List (String × Doc)) :
    ∀ db corrupted,
      (∀ p ∈ ds, parseJson (stringifyVal (.obj p.2)) = some (.obj p.2) ∧
        isValidDoc p.2 true = true ∧ docId p.2 = some p.1) →
      loadLines db corrupted (ds.map fun p => stringifyVal (.obj p.2)) =
        (loadFold ds db, .ok corrupted) := by
  induction ds with
  | nil =>
    intro db corrupted hgood
    rfl
  | cons p rest ih =>
    intro db corrupted hgood
    obtain ⟨hp, hval, hdi⟩ := hgood p (List.mem_cons_self p rest)
    rw [List.map_cons]
    unfold loadLines
    simp only [stringify_obj_ne_empty, Bool.false_eq_true, if_false]
    rw [hp]
    simp only [hval, if_true]
    rw [hdi]
    have hfold : loadFold (p :: rest) db = loadFold rest
        { db with list := listAdd db.list p.1, map := mapSet db.map p.1 p.2 } := rfl
    rw [hfold]
    exact ih { db with list := listAdd db.list p.1, map := mapSet db.map p.1 p.2 }
      corrupted (fun q hq => hgood q (List.mem_cons_of_mem p hq))

theorem find?_beq_none (l : List String) (id : String) (h : id ∉ l) :
    l.find? (fun x => x == id) = none := by
  rw [List.find?_eq_none]
  intro x hx hp
  exact h ((beq_iff_eq.mp hp) ▸ hx)

theorem loadFold_spec (ds : List (String × Doc)) :
    ∀ db, (ds.map Prod.fst).Nodup → (∀ p ∈ ds, p.1 ∉ db.list) →
      ((loadFold ds db).list = db.list ++ ds.map Prod.fst ∧
        (loadFold ds db).strict = db.strict ∧
        (loadFold ds db).hasFile = db.hasFile ∧
        ∀ id, mapGet (loadFold ds db).map id =
          (match ds.find? fun p => p.1 == id with
          | some p => some p.2
          | none => mapGet db.map id)) := by
  induction ds with
  | nil =>
    intro db hnodup hfresh
    refine ⟨by simp [loadFold], rfl, rfl, fun id => rfl⟩
  | cons p rest ih =>
    intro db hnodup hfresh
    rw [List.map_cons, List.nodup_cons] at hnodup
    obtain ⟨hp1, hnodup'⟩ := hnodup
    have hstep : loadFold (p :: rest) db = loadFold rest
        { db with list := listAdd db.list p.1, map := mapSet db.map p.1 p.2 } := rfl
    have hfresh' : ∀ q ∈ rest, q.1 ∉ ({ db with
        list := listAdd db.list p.1, map := mapSet db.map p.1 p.2 } : DB).list := by
      intro q hq hmem
      rcases (listAdd_mem db.list p.1 q.1).mp hmem with h1 | h1
      · exact hfresh q (List.mem_cons_of_mem p hq) h1
      · exact hp1 (h1 ▸ List.mem_map_of_mem Prod.fst hq)
    obtain ⟨hlist, hstrict, hfile, hmap⟩ := ih
      { db with list := listAdd db.list p.1, map := mapSet db.map p.1 p.2 } hnodup' hfresh'
    rw [hstep]
    refine ⟨?_, hstrict, hfile, ?_⟩
    · rw [hlist]
      have hadd : listAdd db.list p.1 = db.list ++ [p.1] := by
        unfold listAdd
        have hc : db.list.contains p.1 = false := by
          rw [Bool.eq_false_iff]
          intro hc
          exact hfresh p (List.mem_cons_self p rest) (by simpa using hc)
        rw [hc]
        rfl
      rw [hadd, List.append_assoc]
      rfl
    · intro id
      rw [hmap id]
      rw [List.find?_cons]
      by_cases hid : p.1 = id
      · have hb : (p.1 == id) = true := beq_iff_eq.mpr hid
        rw [hb]
        have hnone : rest.find? (fun q => q.1 == id) = none := by
          rw [List.find?_eq_none]
          intro q hq hqp
          exact hp1 (hid ▸ (beq_iff_eq.mp hqp) ▸ List.mem_map_of_mem Prod.fst hq)
        rw [hnone]
        rw [hid, mapGet_mapSet_self]
      · have hb : (p.1 == id) = false := beq_eq_false_iff_ne.mpr hid
        rw [hb]
        cases hfind : rest.find? (fun q => q.1 == id) with
        | some q => rfl
        | none => rw [mapGet_mapSet_ne _ _ _ _ (fun hc => hid hc.symm)]

/-- The document stored under an identifier, defaulting to the empty
document. -/
def docAt (m : List (String × Doc)) (id : String) : Doc :=
  (mapGet m id).getD []

theorem persistLines_eq (m : List (String × Doc)) (ids : List String) :
    persistLines m ids =
      (ids.filter fun i => liveAt m i).map fun i => stringifyVal (.obj (docAt m i)) := by
  induction ids with
  | nil => rfl
  | cons i rest ih =>
    unfold persistLines at ih ⊢
    rw [List.filterMap_cons, List.filter_cons]
    cases hmi : mapGet m i with
    | none =>
      have hlv : liveAt m i = false := by
        unfold liveAt
        rw [hmi]
      simp only [hlv, Bool.false_eq_true, if_false]
      exact ih
    | some doc =>
      by_cases hd : doc.isDel = true
      · have hlv : liveAt m i = false := by
          unfold liveAt
          rw [hmi]
          simp [hd]
        simp only [hd, hlv, Bool.false_eq_true, if_false, if_true]
        exact ih
      · have hlv : liveAt m i = true := by
          unfold liveAt
          rw [hmi]
          simpa using hd
        simp only [hd, hlv, Bool.false_eq_true, if_false, if_true, List.map_cons]
        rw [ih]
        have hda : docAt m i = doc := by
          unfold docAt
          rw [hmi]
          rfl
        rw [hda]

/-! ## The claims -/

/-- C1: the spec claims batch insertion validates the whole batch
before any index mutation (strict: all-or-nothing; lenient: invalid
documents skipped, valid ones inserted).  The code of `insert`
(`model.ts` lines 154–171) instead validates inside the insertion loop
and throws regardless of the strict flag: on a lenient store, inserting
a valid document followed by an invalid one rejects the call yet leaves
the valid document inserted.  This evaluation exhibits the failing
input. -/
theorem C1_insert_validates_inside_loop :
    isValidDoc [("bad.key", Val.num 1)] false = false ∧
    (DB.insert (fun _ => "g") { strict := false, hasFile := false, list := [], map := [] }
        [[("_id", Val.str "a")], [("bad.key", Val.num 1)]]).2
      = .error "newDoc is not a valid document" ∧
    (DB.insert (fun _ => "g") { strict := false, hasFile := false, list := [], map := [] }
        [[("_id", Val.str "a")], [("bad.key", Val.num 1)]]).1.list = ["a"] ∧
    mapGet (DB.insert (fun _ => "g") { strict := false, hasFile := false, list := [], map := [] }
        [[("_id", Val.str "a")], [("bad.key", Val.num 1)]]).1.map "a"
      = some [("_id", Val.str "a")] :=
  ⟨rfl, rfl, rfl, rfl⟩

/-- C2 counterexample: the claim says every tombstoned document is
removed from the in-memory index as a side effect of `persist`.  On a
store holding one tombstoned document, `persist` leaves both the
identifier sequence and the record exactly as they were (the document
is only omitted from the written output). -/
theorem C2_persist_keeps_tombstone :
    Doc.isDel [("_id", Val.str "1"), ("$deleted", Val.bool true)] = true ∧
    DB.persist
        { strict := false
          hasFile := true
          list := ["1"]
          map := [("1", [("_id", Val.str "1"), ("$deleted", Val.bool true)])] }
      = ({ strict := false
           hasFile := true
           list := ["1"]
           map := [("1", [("_id", Val.str "1"), ("$deleted", Val.bool true)])] },
        .ok "") :=
  ⟨rfl, rfl⟩

/-- C2 (amended): on a lenient store with a backing file, `persist`
writes exactly one serialized line per listed, present, non-tombstoned
document in stored order; only identifiers whose record entry is
missing (the raising path of the loop; serialization itself is total
on the closed value union) are removed from the identifier sequence,
and the record — tombstoned documents included — is left untouched. -/
theorem C2_persist_output_and_compaction (db : DB) (hfile : db.hasFile = true)
    (hstrict : db.strict = false) :
    db.persist =
      ({ db with list := db.list.filter fun x =>
          !(db.list.contains x && (mapGet db.map x).isNone) },
        .ok (joinNl (persistLines db.map db.list))) := by
  unfold DB.persist
  have hbf : (!db.hasFile) = false := by rw [hfile]; rfl
  simp only [hbf, Bool.false_eq_true, if_false]
  rw [persistGo_lenient db.list db [] hstrict]
  rw [List.nil_append]

/-- C2 witness: the amended persist equation at a concrete store with
one live document, one tombstoned document and one dangling identifier:
the dangling identifier is dropped from the sequence, the tombstoned
document stays in both sequence and record, and the output is the one
live line. -/
theorem C2_persist_output_and_compaction_w :
    DB.persist
        { strict := false
          hasFile := true
          list := ["a", "b", "ghost"]
          map := [("a", [("_id", Val.str "a")]), ("b", [("_id", Val.str "b"), ("$deleted", Val.bool true)])] }
      = ({ strict := false
           hasFile := true
           list := ["a", "b"]
           map := [("a", [("_id", Val.str "a")]), ("b", [("_id", Val.str "b"), ("$deleted", Val.bool true)])] },
        .ok "\x7b\"_id\":\"a\"\x7d") := by
  have h := C2_persist_output_and_compaction
    { strict := false
      hasFile := true
      list := ["a", "b", "ghost"]
      map := [("a", [("_id", Val.str "a")]), ("b", [("_id", Val.str "b"), ("$deleted", Val.bool true)])] }
    rfl rfl
  rw [h]
  decide

/-- C5: a tombstoned document is excluded from every read, match,
update and delete path: `findOne` answers null for its identifier,
every document `findMany`/`find` return stems from a live record
entry, `updateById`/`update` leave its entry untouched,
`deleteById`/`delete` leave its entry untouched, and deleting it again
counts zero. -/
theorem C5_tombstone_excluded (db : DB) (id : String) (doc : Doc)
    (hm : mapGet db.map id = some doc) (hdel : doc.isDel = true) (hid : isId id = true) :
    (∀ proj, db.findOne id proj = .ok none) ∧
    (∀ ids proj res, db.findMany ids proj = .ok res →
      ∀ x ∈ res, ∃ i d, mapGet db.map i = some d ∧ d.isDel = false ∧ x = project d proj) ∧
    (∀ q proj res, db.find q proj = .ok res →
      ∀ x ∈ res, ∃ i d, mapGet db.map i = some d ∧ d.isDel = false ∧ x = project d proj) ∧
    (∀ ids u proj, mapGet (db.updateById ids u proj).1.map id = some doc) ∧
    (∀ q u proj, mapGet (db.update q u proj).1.map id = some doc) ∧
    (∀ ids, mapGet (db.deleteById ids).1.map id = some doc) ∧
    (∀ q, mapGet (db.delete q).1.map id = some doc) ∧
    (db.deleteById [id]).2 = .ok 0 := by
  have hbid : (!isId id) = false := by rw [hid]; rfl
  have hbd : (!doc.isDel) = false := by rw [hdel]; rfl
  refine ⟨?_, ?_, ?_, ?_, ?_, ?_, ?_, ?_⟩
  · intro proj
    unfold DB.findOne
    simp only [hbid, Bool.false_eq_true, if_false]
    rw [hm]
    simp only [hbd, Bool.false_eq_true, if_false]
  · intro ids proj res hrun x hx
    rcases findManyGo_mem db proj ids [] res hrun x hx with hacc | hlive
    · cases hacc
    · exact hlive
  · intro q proj res hrun x hx
    unfold DB.find at hrun
    cases q with
    | obj qs =>
      rcases findGo_mem db (.obj qs) proj db.list [] res hrun x hx with hacc | hlive
      · cases hacc
      · exact hlive
    | null => cases hrun
    | bool b => cases hrun
    | num n => cases hrun
    | str str => cases hrun
    | arr xs => cases hrun
  · intro ids u proj
    unfold DB.updateById
    by_cases hv : (!isValidUpdate u) = true
    · simp only [hv, if_true]; exact hm
    · simp only [hv, Bool.false_eq_true, if_false]
      exact updateByIdGo_keeps_del u proj id doc hdel ids db [] hm
  · intro q u proj
    unfold DB.update
    cases q with
    | obj qs =>
      by_cases hv : (!isValidUpdate u) = true
      · simp only [hv, if_true]; exact hm
      · simp only [hv, Bool.false_eq_true, if_false]
        exact updateGo_keeps_del (.obj qs) u proj id doc hdel db.list db [] hm
    | null => exact hm
    | bool b => exact hm
    | num n => exact hm
    | str str => exact hm
    | arr xs => exact hm
  · intro ids
    exact deleteByIdGo_keeps_del id doc hdel ids db 0 hm
  · intro q
    unfold DB.delete
    cases q with
    | obj qs => exact deleteGo_keeps_del (.obj qs) id doc hdel db.list db 0 hm
    | null => exact hm
    | bool b => exact hm
    | num n => exact hm
    | str str => exact hm
    | arr xs => exact hm
  · unfold DB.deleteById deleteByIdGo
    simp only [hbid, Bool.false_eq_true, if_false]
    rw [hm]
    simp only [hbd, Bool.false_eq_true, if_false]
    rfl

/-- C5 witness: the exclusions at a concrete store whose document with
identifier "2" is tombstoned. -/
theorem C5_tombstone_excluded_w :
    mapGet [("1", [("_id", Val.str "1")]),
        ("2", [("_id", Val.str "2"), ("$deleted", Val.bool true)])] "2"
      = some [("_id", Val.str "2"), ("$deleted", Val.bool true)] ∧
    Doc.isDel [("_id", Val.str "2"), ("$deleted", Val.bool true)] = true ∧
    DB.findOne
      { strict := false
        hasFile := false
        list := ["1", "2"]
        map := [("1", [("_id", Val.str "1")]),
          ("2", [("_id", Val.str "2"), ("$deleted", Val.bool true)])] } "2" none = .ok none ∧
    (DB.deleteById
      { strict := false
        hasFile := false
        list := ["1", "2"]
        map := [("1", [("_id", Val.str "1")]),
          ("2", [("_id", Val.str "2"), ("$deleted", Val.bool true)])] } ["2"]).2 = .ok 0 := by
  refine ⟨rfl, rfl, ?_, ?_⟩
  · exact (C5_tombstone_excluded
      { strict := false
        hasFile := false
        list := ["1", "2"]
        map := [("1", [("_id", Val.str "1")]),
          ("2", [("_id", Val.str "2"), ("$deleted", Val.bool true)])] }
      "2" [("_id", Val.str "2"), ("$deleted", Val.bool true)] rfl rfl rfl).1 none
  · exact (C5_tombstone_excluded
      { strict := false
        hasFile := false
        list := ["1", "2"]
        map := [("1", [("_id", Val.str "1")]),
          ("2", [("_id", Val.str "2"), ("$deleted", Val.bool true)])] }
      "2" [("_id", Val.str "2"), ("$deleted", Val.bool true)] rfl rfl rfl).2.2.2.2.2.2.2

/-- C6: updates never alter the identifier: whenever the stored
document at an identifier carries that identifier, the entry after any
`updateById` or `update` call still carries it (the trailing spread
`\x7b ...newDoc, _id \x7d` re-imposes the key in both modes). -/
theorem C6_update_preserves_id (db : DB) (id : String) (doc : Doc)
    (hm : mapGet db.map id = some doc) (hdi : docId doc = some id) :
    (∀ ids u proj d1, mapGet (db.updateById ids u proj).1.map id = some d1 →
      docId d1 = some id) ∧
    (∀ q u proj d1, mapGet (db.update q u proj).1.map id = some d1 →
      docId d1 = some id) := by
  have hpre : ∀ d0, mapGet db.map id = some d0 → docId d0 = some id := by
    intro d0 h0
    rw [hm] at h0
    cases h0
    exact hdi
  constructor
  · intro ids u proj d1 h1
    unfold DB.updateById at h1
    by_cases hv : (!isValidUpdate u) = true
    · simp only [hv, if_true] at h1
      exact hpre d1 h1
    · simp only [hv, Bool.false_eq_true, if_false] at h1
      exact updateByIdGo_keepsId u proj id ids db [] hpre d1 h1
  · intro q u proj d1 h1
    unfold DB.update at h1
    cases q with
    | obj qs =>
      by_cases hv : (!isValidUpdate u) = true
      · simp only [hv, if_true] at h1
        exact hpre d1 h1
      · simp only [hv, Bool.false_eq_true, if_false] at h1
        exact updateGo_keepsId (.obj qs) u proj id db.list db [] hpre d1 h1
    | null => exact hpre d1 h1
    | bool b => exact hpre d1 h1
    | num n => exact hpre d1 h1
    | str str => exact hpre d1 h1
    | arr xs => exact hpre d1 h1

/-- C6 witness: a replacement update that tries to smuggle in a
different identifier still leaves the stored identifier unchanged. -/
theorem C6_update_preserves_id_w :
    (DB.updateById
        { strict := false
          hasFile := false
          list := ["2"]
          map := [("2", [("_id", Val.str "2"), ("t", Val.str "x")])] }
        ["2"] (Val.obj [("t", Val.str "y"), ("_id", Val.str "zzz")]) none).1.map
      = [("2", [("t", Val.str "y"), ("_id", Val.str "2")])] ∧
    docId [("t", Val.str "y"), ("_id", Val.str "2")] = some "2" := by
  refine ⟨by decide, ?_⟩
  exact (C6_update_preserves_id
    { strict := false
      hasFile := false
      list := ["2"]
      map := [("2", [("_id", Val.str "2"), ("t", Val.str "x")])] }
    "2" [("_id", Val.str "2"), ("t", Val.str "x")] rfl rfl).1
    ["2"] (Val.obj [("t", Val.str "y"), ("_id", Val.str "zzz")]) none
    [("t", Val.str "y"), ("_id", Val.str "2")] (by decide)

/-- C7: the bijection between the identifier sequence and the record —
no duplicate identifiers, no duplicate record keys, every listed
identifier has an entry and every entry's key is listed — is preserved
by insert, updateById, update, deleteById, delete, load, persist and
drop. -/
theorem C7_index_bijection_preserved (db : DB) (h : DBInv db) :
    (∀ gen docs, DBInv (DB.insert gen db docs).1) ∧
    (∀ ids u proj, DBInv (db.updateById ids u proj).1) ∧
    (∀ q u proj, DBInv (db.update q u proj).1) ∧
    (∀ ids, DBInv (db.deleteById ids).1) ∧
    (∀ q, DBInv (db.delete q).1) ∧
    (∀ content, DBInv (db.load content).1) ∧
    DBInv db.persist.1 ∧
    DBInv db.drop.1 :=
  ⟨fun gen docs => DBInv_insert gen db docs h,
    fun ids u proj => DBInv_updateById db ids u proj h,
    fun q u proj => DBInv_update db q u proj h,
    fun ids => DBInv_deleteById db ids h,
    fun q => DBInv_delete db q h,
    fun content => DBInv_load db content h,
    DBInv_persist db h,
    DBInv_drop db h⟩

/-- C7 witness: the invariant holds at a concrete two-document store
and is preserved by a delete and an insert there. -/
theorem C7_index_bijection_preserved_w :
    DBInv
      { strict := false
        hasFile := true
        list := ["1", "2"]
        map := [("1", [("_id", Val.str "1")]), ("2", [("_id", Val.str "2")])] } ∧
    DBInv (DB.delete
      { strict := false
        hasFile := true
        list := ["1", "2"]
        map := [("1", [("_id", Val.str "1")]), ("2", [("_id", Val.str "2")])] }
      (Val.obj [("_id", Val.str "2")])).1 ∧
    DBInv (DB.insert (fun _ => "g")
      { strict := false
        hasFile := true
        list := ["1", "2"]
        map := [("1", [("_id", Val.str "1")]), ("2", [("_id", Val.str "2")])] }
      [[("_id", Val.str "3")]]).1 := by
  refine ⟨by decide, ?_, ?_⟩
  · exact (C7_index_bijection_preserved
      { strict := false
        hasFile := true
        list := ["1", "2"]
        map := [("1", [("_id", Val.str "1")]), ("2", [("_id", Val.str "2")])] }
      (by decide)).2.2.2.2.1 (Val.obj [("_id", Val.str "2")])
  · exact (C7_index_bijection_preserved
      { strict := false
        hasFile := true
        list := ["1", "2"]
        map := [("1", [("_id", Val.str "1")]), ("2", [("_id", Val.str "2")])] }
      (by decide)).1 (fun _ => "g") [[("_id", Val.str "3")]]

/-- C8: on a duplicate-free store, a successful `delete` returns
exactly the number of listed, live (present and non-tombstoned)
documents matching the query, and sets the tombstone flag on exactly
those entries (already-tombstoned documents are neither recounted nor
touched); a successful `deleteById` on duplicate-free identifiers
likewise returns the number of live entries among them and tombstones
exactly those. -/
theorem C8_delete_counts (db : DB) (hnodup : db.list.Nodup) :
    (∀ fs db' n, db.delete (Val.obj fs) = (db', .ok n) →
      (n = (db.list.filter fun i => matchesLive db.map (Val.obj fs) i).length ∧
        ∀ id d0, mapGet db.map id = some d0 →
          mapGet db'.map id =
            some (if id ∈ db.list ∧ matchesLive db.map (Val.obj fs) id = true
              then setField d0 "$deleted" (.bool true) else d0))) ∧
    (∀ ids db' n, ids.Nodup → db.deleteById ids = (db', .ok n) →
      (n = (ids.filter fun i => liveAt db.map i).length ∧
        ∀ id d0, mapGet db.map id = some d0 →
          mapGet db'.map id =
            some (if id ∈ ids ∧ liveAt db.map id = true
              then setField d0 "$deleted" (.bool true) else d0))) := by
  constructor
  · intro fs db' n hrun
    unfold DB.delete at hrun
    obtain ⟨hcount, hpt⟩ := deleteGo_spec (Val.obj fs) db.list db 0 db' n hnodup hrun
    exact ⟨by rw [hcount]; omega, hpt⟩
  · intro ids db' n hnd hrun
    unfold DB.deleteById at hrun
    obtain ⟨hcount, hpt⟩ := deleteByIdGo_spec ids db 0 db' n hnd hrun
    exact ⟨by rw [hcount]; omega, hpt⟩

/-- C8 witness: the spec's scenario — `delete \x7b _id: "2" \x7d` on a
three-document store returns count 1, and a subsequent `find \x7b\x7d`
omits identifier "2". -/
theorem C8_delete_counts_w :
    (DB.delete
        { strict := false
          hasFile := false
          list := ["1", "2", "3"]
          map := [("1", [("_id", Val.str "1")]), ("2", [("_id", Val.str "2")]),
            ("3", [("_id", Val.str "3")])] }
        (Val.obj [("_id", Val.str "2")])).2 = .ok 1 ∧
    1 = (List.filter
        (fun i => matchesLive
          [("1", [("_id", Val.str "1")]), ("2", [("_id", Val.str "2")]),
            ("3", [("_id", Val.str "3")])]
          (Val.obj [("_id", Val.str "2")]) i)
        ["1", "2", "3"]).length ∧
    DB.find (DB.delete
        { strict := false
          hasFile := false
          list := ["1", "2", "3"]
          map := [("1", [("_id", Val.str "1")]), ("2", [("_id", Val.str "2")]),
            ("3", [("_id", Val.str "3")])] }
        (Val.obj [("_id", Val.str "2")])).1 (Val.obj []) none
      = .ok [[("_id", Val.str "1")], [("_id", Val.str "3")]] := by
  refine ⟨by decide, ?_, by decide⟩
  exact ((C8_delete_counts
    { strict := false
      hasFile := false
      list := ["1", "2", "3"]
      map := [("1", [("_id", Val.str "1")]), ("2", [("_id", Val.str "2")]),
        ("3", [("_id", Val.str "3")])] }
    (by decide)).1 [("_id", Val.str "2")]
    { strict := false
      hasFile := false
      list := ["1", "2", "3"]
      map := [("1", [("_id", Val.str "1")]),
        ("2", [("_id", Val.str "2"), ("$deleted", Val.bool true)]),
        ("3", [("_id", Val.str "3")])] }
    1 (by decide)).1

/-! ## Partial effects of failing id-list calls (claim C9) -/

theorem deleteByIdGo_partial (bad : String) (restIds : List String)
    (hbad : isId bad = false) (goodIds : List String) :
    ∀ db count, goodIds.Nodup →
      (∀ i ∈ goodIds, isId i = true ∧ ∃ d, mapGet db.map i = some d ∧ d.isDel = false) →
      ∃ db'', deleteByIdGo db count (goodIds ++ bad :: restIds)
          = (db'', .error ("Invalid _id: " ++ bad)) ∧
        (∀ i ∈ goodIds, ∃ d, mapGet db.map i = some d ∧
          mapGet db''.map i = some (setField d "$deleted" (.bool true))) ∧
        (∀ x, x ∉ goodIds → mapGet db''.map x = mapGet db.map x) := by
  induction goodIds with
  | nil =>
    intro db count hnd hlive
    refine ⟨db, ?_, ?_, ?_⟩
    · rw [List.nil_append]
      unfold deleteByIdGo
      have hb : (!isId bad) = true := by rw [hbad]; rfl
      simp only [hb, if_true]
    · intro i hi; cases hi
    · intro x hx; rfl
  | cons i g' ih =>
    intro db count hnd hlive
    rw [List.nodup_cons] at hnd
    obtain ⟨hni, hnd'⟩ := hnd
    obtain ⟨hidi, d, hmd, hdel⟩ := hlive i (List.mem_cons_self i g')
    have hb : (!isId i) = false := by rw [hidi]; rfl
    have hbd : (!d.isDel) = true := by rw [hdel]; rfl
    have hstep : (i :: g') ++ bad :: restIds = i :: (g' ++ bad :: restIds) := rfl
    rw [hstep]
    unfold deleteByIdGo
    simp only [hb, Bool.false_eq_true, if_false]
    rw [hmd]
    simp only [hbd, if_true]
    obtain ⟨db'', hrun, hgood, hframe⟩ := ih
      { db with map := mapSet db.map i (setField d "$deleted" (.bool true)) } (count + 1)
      hnd'
      (by
        intro j hj
        obtain ⟨hidj, dj, hmj, hdj⟩ := hlive j (List.mem_cons_of_mem i hj)
        have hne : j ≠ i := fun hc => hni (hc ▸ hj)
        exact ⟨hidj, dj, by rw [mapGet_mapSet_ne _ _ _ _ hne]; exact hmj, hdj⟩)
    refine ⟨db'', hrun, ?_, ?_⟩
    · intro j hj
      rcases List.mem_cons.mp hj with rfl | hjg
      · refine ⟨d, hmd, ?_⟩
        rw [hframe j hni]
        exact mapGet_mapSet_self _ _ _
      · obtain ⟨dj, hmj, hout⟩ := hgood j hjg
        have hne : j ≠ i := fun hc => hni (hc ▸ hjg)
        rw [mapGet_mapSet_ne _ _ _ _ hne] at hmj
        exact ⟨dj, hmj, hout⟩
    · intro x hx
      have hxi : x ≠ i := fun hc => hx (hc ▸ List.mem_cons_self i g')
      have hxg : x ∉ g' := fun hc => hx (List.mem_cons_of_mem i hc)
      rw [hframe x hxg, mapGet_mapSet_ne _ _ _ _ hxi]

theorem updateByIdGo_partial (bad : String) (restIds : List String) (fs : Doc)
    (proj : Option (List String)) (hbad : isId bad = false)
    (hop : hasOperators (Val.obj fs) = false) (goodIds : List String) :
    ∀ db acc, goodIds.Nodup →
      (∀ i ∈ goodIds, isId i = true ∧ ∃ d, mapGet db.map i = some d ∧ d.isDel = false) →
      ∃ db'', updateByIdGo (Val.obj fs) proj db acc (goodIds ++ bad :: restIds)
          = (db'', .error ("Invalid _id: " ++ bad)) ∧
        (∀ i ∈ goodIds, mapGet db''.map i = some (setField fs "_id" (.str i))) ∧
        (∀ x, x ∉ goodIds → mapGet db''.map x = mapGet db.map x) := by
  have hnd : ∀ d : Doc, updNewDoc d (Val.obj fs) = .ok fs := by
    intro d
    unfold updNewDoc
    simp only [hop, Bool.false_eq_true, if_false]
  induction goodIds with
  | nil =>
    intro db acc hnodup hlive
    refine ⟨db, ?_, ?_, ?_⟩
    · rw [List.nil_append]
      unfold updateByIdGo
      have hb : (!isId bad) = true := by rw [hbad]; rfl
      simp only [hb, if_true]
    · intro i hi; cases hi
    · intro x hx; rfl
  | cons i g' ih =>
    intro db acc hnodup hlive
    rw [List.nodup_cons] at hnodup
    obtain ⟨hni, hnodup'⟩ := hnodup
    obtain ⟨hidi, d, hmd, hdel⟩ := hlive i (List.mem_cons_self i g')
    have hb : (!isId i) = false := by rw [hidi]; rfl
    have hbd : d.isDel = false := hdel
    have hstep : (i :: g') ++ bad :: restIds = i :: (g' ++ bad :: restIds) := rfl
    rw [hstep]
    unfold updateByIdGo
    simp only [hb, Bool.false_eq_true, if_false]
    rw [hmd]
    simp only [hbd, Bool.false_eq_true, if_false]
    have hupd : updStep db (Val.obj fs) proj i d acc =
        .ok ({ db with map := mapSet db.map i (setField fs "_id" (.str i)) },
          acc ++ [project (setField fs "_id" (.str i)) proj]) := by
      unfold updStep
      rw [hnd d]
    rw [hupd]
    obtain ⟨db'', hrun, hgood, hframe⟩ := ih
      { db with map := mapSet db.map i (setField fs "_id" (.str i)) }
      (acc ++ [project (setField fs "_id" (.str i)) proj])
      hnodup'
      (by
        intro j hj
        obtain ⟨hidj, dj, hmj, hdj⟩ := hlive j (List.mem_cons_of_mem i hj)
        have hne : j ≠ i := fun hc => hni (hc ▸ hj)
        exact ⟨hidj, dj, by rw [mapGet_mapSet_ne _ _ _ _ hne]; exact hmj, hdj⟩)
    refine ⟨db'', hrun, ?_, ?_⟩
    · intro j hj
      rcases List.mem_cons.mp hj with rfl | hjg
      · rw [hframe j hni]
        exact mapGet_mapSet_self _ _ _
      · exact hgood j hjg
    · intro x hx
      have hxi : x ≠ i := fun hc => hx (hc ▸ List.mem_cons_self i g')
      have hxg : x ∉ g' := fun hc => hx (List.mem_cons_of_mem i hc)
      rw [hframe x hxg, mapGet_mapSet_ne _ _ _ _ hxi]

/-- C9: when the identifier list of `deleteById` (or `updateById` with
a replacement update) holds valid identifiers of live documents
followed by an invalid identifier, the call raises, yet the documents
matched by the leading identifiers are already tombstoned
(respectively replaced) in the resulting state — the error does not
roll back the effects applied earlier in the same call. -/
theorem C9_error_keeps_partial_effects (db : DB) (goodIds : List String) (bad : String)
    (restIds : List String) (hbad : isId bad = false) (hnodup : goodIds.Nodup)
    (hlive : ∀ i ∈ goodIds, isId i = true ∧
      ∃ d, mapGet db.map i = some d ∧ d.isDel = false) :
    ((db.deleteById (goodIds ++ bad :: restIds)).2 = .error ("Invalid _id: " ++ bad) ∧
      ∀ i ∈ goodIds, ∃ d, mapGet db.map i = some d ∧
        mapGet (db.deleteById (goodIds ++ bad :: restIds)).1.map i
          = some (setField d "$deleted" (.bool true))) ∧
    (∀ fs proj, hasOperators (Val.obj fs) = false → isValidUpdate (Val.obj fs) = true →
      ((db.updateById (goodIds ++ bad :: restIds) (Val.obj fs) proj).2
          = .error ("Invalid _id: " ++ bad) ∧
        ∀ i ∈ goodIds,
          mapGet (db.updateById (goodIds ++ bad :: restIds) (Val.obj fs) proj).1.map i
            = some (setField fs "_id" (.str i)))) := by
  constructor
  · obtain ⟨db'', hrun, hgood, -⟩ :=
      deleteByIdGo_partial bad restIds hbad goodIds db 0 hnodup hlive
    constructor
    · unfold DB.deleteById
      rw [hrun]
    · intro i hi
      obtain ⟨d, hmd, hout⟩ := hgood i hi
      refine ⟨d, hmd, ?_⟩
      unfold DB.deleteById
      rw [hrun]
      exact hout
  · intro fs proj hop hval
    obtain ⟨db'', hrun, hgood, -⟩ :=
      updateByIdGo_partial bad restIds fs proj hbad hop goodIds db [] hnodup hlive
    have hbv : (!isValidUpdate (Val.obj fs)) = false := by rw [hval]; rfl
    constructor
    · unfold DB.updateById
      simp only [hbv, Bool.false_eq_true, if_false]
      rw [hrun]
    · intro i hi
      unfold DB.updateById
      simp only [hbv, Bool.false_eq_true, if_false]
      rw [hrun]
      exact hgood i hi

/-- C9 witness: deleting `["1", "", "3"]` on a three-document store
raises on the empty identifier but leaves document "1" tombstoned;
the same shape for a replacement update leaves document "1"
replaced. -/
theorem C9_error_keeps_partial_effects_w :
    (DB.deleteById
        { strict := false
          hasFile := false
          list := ["1", "2", "3"]
          map := [("1", [("_id", Val.str "1")]), ("2", [("_id", Val.str "2")]),
            ("3", [("_id", Val.str "3")])] }
        ["1", "", "3"]).2 = .error "Invalid _id: " ∧
    mapGet (DB.deleteById
        { strict := false
          hasFile := false
          list := ["1", "2", "3"]
          map := [("1", [("_id", Val.str "1")]), ("2", [("_id", Val.str "2")]),
            ("3", [("_id", Val.str "3")])] }
        ["1", "", "3"]).1.map "1"
      = some [("_id", Val.str "1"), ("$deleted", Val.bool true)] := by
  have h := (C9_error_keeps_partial_effects
    { strict := false
      hasFile := false
      list := ["1", "2", "3"]
      map := [("1", [("_id", Val.str "1")]), ("2", [("_id", Val.str "2")]),
        ("3", [("_id", Val.str "3")])] }
    ["1"] "" ["3"] rfl (by decide)
    (by
      intro i hi
      rcases List.mem_cons.mp hi with rfl | hi2
      · exact ⟨rfl, [("_id", Val.str "1")], rfl, rfl⟩
      · cases hi2)).1
  refine ⟨h.1, ?_⟩
  obtain ⟨d, hmd, hout⟩ := h.2 "1" (List.mem_cons_self "1" [])
  have hd1 : d = [("_id", Val.str "1")] := by
    have : some d = some [("_id", Val.str "1")] := by rw [← hmd]; rfl
    cases this
    rfl
  rw [hd1] at hout
  exact hout

/-! ## Duplicate identifiers in the file (claim C10) -/

/-- C10: when the backing file holds two well-formed lines carrying the
same `_id`, `load` records the later line's document under that
identifier and keeps a single entry in the identifier set — the last
occurrence wins. -/
theorem C10_load_last_line_wins (db : DB) (lineA lineB : String) (fsA fsB : Doc)
    (id : String) (hfile : db.hasFile = true)
    (hnlA : '\n' ∉ lineA.toList) (hnlB : '\n' ∉ lineB.toList)
    (hpA : parseJson lineA = some (.obj fsA)) (hvA : isValidDoc fsA true = true)
    (hiA : docId fsA = some id)
    (hpB : parseJson lineB = some (.obj fsB)) (hvB : isValidDoc fsB true = true)
    (hiB : docId fsB = some id) :
    db.load (some (lineA ++ "\n" ++ lineB)) =
      ({ db with list := [id], map := [(id, fsB)] }, .ok []) := by
  have hempty : ∀ (l : String) (fs : Doc), parseJson l = some (.obj fs) →
      l.isEmpty = false := by
    intro l fs hp
    rw [Bool.eq_false_iff]
    intro hc
    rw [(String.isEmpty_iff _).mp hc] at hp
    have hnone : parseJson "" = none := by decide
    rw [hnone] at hp
    cases hp
  have heA := hempty lineA fsA hpA
  have heB := hempty lineB fsB hpB
  unfold DB.load
  have hf : (!db.hasFile) = false := by rw [hfile]; rfl
  simp only [hf, Bool.false_eq_true, if_false]
  rw [splitNl_append _ _ hnlA, splitNl_single _ hnlB]
  unfold loadLines
  simp only [heA, Bool.false_eq_true, if_false]
  rw [hpA]
  simp only [hvA, if_true]
  rw [hiA]
  unfold loadLines
  simp only [heB, Bool.false_eq_true, if_false]
  rw [hpB]
  simp only [hvB, if_true]
  rw [hiB]
  unfold loadLines
  simp [DB.flush, listAdd, mapSet, recSet]

/-- C10 witness: loading a file whose two lines both carry `_id` "a"
keeps only the second document. -/
theorem C10_load_last_line_wins_w :
    DB.load { strict := false, hasFile := true, list := [], map := [] }
        (some "\x7b\"_id\":\"a\",\"n\":1\x7d\n\x7b\"_id\":\"a\",\"n\":2\x7d") =
      ({ strict := false
         hasFile := true
         list := ["a"]
         map := [("a", [("_id", Val.str "a"), ("n", Val.num 2)])] },
        .ok []) := by
  have h := C10_load_last_line_wins
    { strict := false, hasFile := true, list := [], map := [] }
    "\x7b\"_id\":\"a\",\"n\":1\x7d" "\x7b\"_id\":\"a\",\"n\":2\x7d"
    [("_id", Val.str "a"), ("n", Val.num 1)]
    [("_id", Val.str "a"), ("n", Val.num 2)] "a"
    rfl (by decide) (by decide) (by decide) (by decide) (by decide)
    (by decide) (by decide) (by decide)
  exact h

/-! ## Corruption triage during load (claim C4) -/

/-- C4: loading an existing file triages each non-empty line: under the
lenient policy the returned list is exactly the raw text of the lines
that fail to parse or fail shape validation, while every well-formed
line's identifier still enters the index; under the strict policy the
presence of any such line makes the call raise an error. -/
theorem C4_load_corruption_triage (db : DB) (text : String)
    (hfile : db.hasFile = true) :
    (db.strict = false →
      (db.load (some text)).2 =
        .ok ((splitNl text).filter fun l => !l.isEmpty && corruptLine l) ∧
      ∀ l ∈ splitNl text, ∀ fs id, parseJson l = some (.obj fs) →
        isValidDoc fs true = true → docId fs = some id →
        id ∈ (db.load (some text)).1.list) ∧
    (db.strict = true →
      (∃ l ∈ splitNl text, l.isEmpty = false ∧ corruptLine l = true) →
      ∃ e, (db.load (some text)).2 = .error e) := by
  have hload : db.load (some text) = loadLines db.flush [] (splitNl text) := by
    unfold DB.load
    have hf : (!db.hasFile) = false := by rw [hfile]; rfl
    simp only [hf, Bool.false_eq_true, if_false]
  rw [hload]
  refine ⟨fun hstrict => ⟨?_, ?_⟩, fun hstrict hbad => ?_⟩
  · rw [loadLines_corrupted (splitNl text) db.flush [] hstrict, List.nil_append]
  · intro l hl fs id hp hv hi
    exact loadLines_good_mem (splitNl text) db.flush [] hstrict l hl fs id hp hv hi
  · exact loadLines_strict_err (splitNl text) db.flush [] hstrict hbad

/-- C4 witness: a file with one well-formed line and one invalid-JSON
line, loaded leniently, yields the raw invalid line as the single
corrupted entry while the well-formed line's identifier is indexed. -/
theorem C4_load_corruption_triage_w :
    (DB.load { strict := false, hasFile := true, list := [], map := [] }
        (some "\x7b\"_id\":\"a\"\x7d\n\x7b bad")).2 = .ok ["\x7b bad"] ∧
    "a" ∈ (DB.load { strict := false, hasFile := true, list := [], map := [] }
        (some "\x7b\"_id\":\"a\"\x7d\n\x7b bad")).1.list := by
  have h := (C4_load_corruption_triage
    { strict := false, hasFile := true, list := [], map := [] }
    "\x7b\"_id\":\"a\"\x7d\n\x7b bad" rfl).1 rfl
  refine ⟨?_, ?_⟩
  · rw [h.1]
    decide
  · exact h.2 "\x7b\"_id\":\"a\"\x7d" (by decide) [("_id", Val.str "a")] "a"
      (by decide) (by decide) (by decide)

/-! ## Round-trip helpers (claim C3) -/

theorem mapGet_mem (m : List (String × Doc)) (id : String) (d : Doc)
    (h : mapGet m id = some d) : (id, d) ∈ m := by
  unfold mapGet recGet at h
  cases hf : m.find? fun f => f.1 == id with
  | none => rw [hf] at h; cases h
  | some f =>
    rw [hf] at h
    have hmem := List.mem_of_find?_eq_some hf
    have hbeq := List.find?_some hf
    rw [beq_iff_eq] at hbeq
    have h2 : f.2 = d := by
      have hh : some f.2 = some d := h
      exact Option.some.inj hh
    rw [← hbeq, ← h2]
    exact hmem

theorem mapGet_docAt (m : List (String × Doc)) (id : String) (d : Doc)
    (h : mapGet m id = some d) : docAt m id = d := by
  unfold docAt
  rw [h]
  rfl

theorem find?_map_pair (f : String → Doc) (l : List String) (id : String) :
    ((l.map fun i => (i, f i)).find? fun p => p.1 == id) =
      if id ∈ l then some (id, f id) else none := by
  induction l with
  | nil => simp
  | cons i rest ih =>
    by_cases hi : i = id
    · subst hi
      simp [List.find?_cons]
    · have hi' : ¬ id = i := fun h => hi h.symm
      simp [List.find?_cons, hi, hi', ih]

/-- C3: on a store with a backing file whose live documents serialize
and parse back faithfully (the embedded JSON fragment), `persist`
succeeds without touching the index, and `load` of the written content
rebuilds an index equal to the pre-persist one with every tombstoned
(and danglingly listed) identifier purged: the surviving identifier
sequence is the live sub-sequence of the old one, and lookup agrees
with the old store exactly on live identifiers. -/
theorem C3_persist_load_roundtrip (db : DB) (hfile : db.hasFile = true)
    (hinv : DBInv db)
    (hdocs : ∀ p ∈ db.map, p.2.isDel = false →
      parseJson (stringifyVal (.obj p.2)) = some (.obj p.2) ∧
      isValidDoc p.2 true = true ∧ docId p.2 = some p.1 ∧
      '\n' ∉ (stringifyVal (.obj p.2)).toList) :
    ∃ content, db.persist = (db, .ok content) ∧
      (db.load (some content)).2 = .ok [] ∧
      (db.load (some content)).1.list = db.list.filter (fun i => liveAt db.map i) ∧
      ∀ id, mapGet (db.load (some content)).1.map id =
        if liveAt db.map id then mapGet db.map id else none := by
  obtain ⟨h1, h2, h3, h4⟩ := hinv
  set liveIds := db.list.filter (fun i => liveAt db.map i) with hliveIds
  set ds := liveIds.map (fun i => (i, docAt db.map i)) with hds
  have hkey : ∀ id d, mapGet db.map id = some d → id ∈ db.list := by
    intro id d h
    exact h4 (id, d) (mapGet_mem _ _ _ h)
  have hlivemem : ∀ id, liveAt db.map id = true → id ∈ liveIds := by
    intro id hl
    have hl' := hl
    unfold liveAt at hl'
    cases hm : mapGet db.map id with
    | none => rw [hm] at hl'; cases hl'
    | some d => exact List.mem_filter.mpr ⟨hkey id d hm, hl⟩
  have hdsmem : ∀ p ∈ ds, mapGet db.map p.1 = some p.2 ∧ p.2.isDel = false := by
    intro p hp
    rw [hds] at hp
    obtain ⟨i, hi, rfl⟩ := List.mem_map.mp hp
    have hlv : liveAt db.map i = true := (List.mem_filter.mp hi).2
    unfold liveAt at hlv
    show mapGet db.map i = some (docAt db.map i) ∧ (docAt db.map i).isDel = false
    cases hm : mapGet db.map i with
    | none => rw [hm] at hlv; cases hlv
    | some d =>
      rw [hm] at hlv
      rw [mapGet_docAt _ _ _ hm]
      refine ⟨rfl, ?_⟩
      simp only [Bool.not_eq_true'] at hlv
      exact hlv
  have hprops : ∀ p ∈ ds,
      parseJson (stringifyVal (.obj p.2)) = some (.obj p.2) ∧
      isValidDoc p.2 true = true ∧ docId p.2 = some p.1 ∧
      '\n' ∉ (stringifyVal (.obj p.2)).toList := by
    intro p hp
    obtain ⟨hm, hdel⟩ := hdsmem p hp
    exact hdocs p (mapGet_mem _ _ _ hm) hdel
  have hper : db.persist = (db, .ok (joinNl (persistLines db.map db.list))) := by
    unfold DB.persist
    have hf : (!db.hasFile) = false := by rw [hfile]; rfl
    simp only [hf, Bool.false_eq_true, if_false]
    rw [persistGo_allPresent db.list db [] h3, List.nil_append]
  have hlines : persistLines db.map db.list = ds.map fun p => stringifyVal (.obj p.2) := by
    rw [persistLines_eq, hds, List.map_map]
    rfl
  have hkeys : ds.map Prod.fst = liveIds := by
    rw [hds, List.map_map]
    exact List.map_id liveIds
  have hload0 : ∀ s, db.load (some s) = loadLines db.flush [] (splitNl s) := by
    intro s
    unfold DB.load
    have hf : (!db.hasFile) = false := by rw [hfile]; rfl
    simp only [hf, Bool.false_eq_true, if_false]
  refine ⟨joinNl (persistLines db.map db.list), hper, ?_⟩
  rw [hload0, hlines]
  by_cases hnil : liveIds = []
  · have hds0 : ds = ([] : List (String × Doc)) := by rw [hds, hnil]; rfl
    rw [hds0]
    have hstep : loadLines db.flush [] (splitNl (joinNl
        (([] : List (String × Doc)).map fun p => stringifyVal (.obj p.2)))) =
        (db.flush, .ok []) := rfl
    rw [hstep]
    refine ⟨rfl, ?_, ?_⟩
    · show ([] : List String) = liveIds
      rw [hnil]
    · intro id
      cases hla : liveAt db.map id with
      | false => simp only [hla, Bool.false_eq_true, if_false]; rfl
      | true =>
        exfalso
        have := hlivemem id hla
        rw [hnil] at this
        cases this
  · have hmapnil : (ds.map fun p => stringifyVal (.obj p.2)) ≠ [] := by
      intro hc
      apply hnil
      rw [← hkeys]
      rw [List.map_eq_nil] at hc
      rw [hc]
      rfl
    have hnlall : ∀ l ∈ ds.map fun p => stringifyVal (.obj p.2), '\n' ∉ l.toList := by
      intro l hl
      obtain ⟨p, hp, rfl⟩ := List.mem_map.mp hl
      exact (hprops p hp).2.2.2
    rw [splitNl_joinNl _ hmapnil hnlall]
    rw [loadLines_good ds db.flush [] (fun p hp =>
      ⟨(hprops p hp).1, (hprops p hp).2.1, (hprops p hp).2.2.1⟩)]
    have hfold := loadFold_spec ds db.flush
      (by rw [hkeys]; exact h1.filter _)
      (by intro p hp hc; exact absurd hc (List.not_mem_nil p.1))
    obtain ⟨hfl, -, -, hfm⟩ := hfold
    refine ⟨rfl, ?_, ?_⟩
    · show (loadFold ds db.flush).list = liveIds
      rw [hfl, hkeys]
      show ([] : List String) ++ liveIds = liveIds
      rw [List.nil_append]
    · intro id
      show mapGet (loadFold ds db.flush).map id = _
      rw [hfm id, hds, find?_map_pair (docAt db.map) liveIds id]
      cases hla : liveAt db.map id with
      | true =>
        have hmem := hlivemem id hla
        rw [if_pos hmem]
        have hla' := hla
        unfold liveAt at hla'
        cases hm : mapGet db.map id with
        | none => rw [hm] at hla'; cases hla'
        | some d =>
          rw [mapGet_docAt _ _ _ hm]
          rw [if_pos rfl]
      | false =>
        have hnm : id ∉ liveIds := by
          intro hc
          have hc2 := (List.mem_filter.mp hc).2
          rw [hla] at hc2
          cases hc2
        rw [if_neg hnm]
        rw [if_neg (by decide : ¬ (false = true))]
        rfl

/-- C3 witness: a store holding one live and one tombstoned document
round-trips through persist and load, with the tombstone purged. -/
theorem C3_persist_load_roundtrip_w :
    ∃ content,
      DB.persist
        { strict := false
          hasFile := true
          list := ["1", "2"]
          map := [("1", [("_id", Val.str "1"), ("n", Val.num 5)]),
            ("2", [("_id", Val.str "2"), ("$deleted", Val.bool true)])] } =
        ({ strict := false
           hasFile := true
           list := ["1", "2"]
           map := [("1", [("_id", Val.str "1"), ("n", Val.num 5)]),
             ("2", [("_id", Val.str "2"), ("$deleted", Val.bool true)])] }, .ok content) ∧
      (DB.load
        { strict := false
          hasFile := true
          list := ["1", "2"]
          map := [("1", [("_id", Val.str "1"), ("n", Val.num 5)]),
            ("2", [("_id", Val.str "2"), ("$deleted", Val.bool true)])] }
        (some content)).2 = .ok [] ∧
      (DB.load
        { strict := false
          hasFile := true
          list := ["1", "2"]
          map := [("1", [("_id", Val.str "1"), ("n", Val.num 5)]),
            ("2", [("_id", Val.str "2"), ("$deleted", Val.bool true)])] }
        (some content)).1.list =
        List.filter (fun i => liveAt [("1", [("_id", Val.str "1"), ("n", Val.num 5)]),
            ("2", [("_id", Val.str "2"), ("$deleted", Val.bool true)])] i) ["1", "2"] ∧
      ∀ id, mapGet (DB.load
        { strict := false
          hasFile := true
          list := ["1", "2"]
          map := [("1", [("_id", Val.str "1"), ("n", Val.num 5)]),
            ("2", [("_id", Val.str "2"), ("$deleted", Val.bool true)])] }
        (some content)).1.map id =
        if liveAt [("1", [("_id", Val.str "1"), ("n", Val.num 5)]),
            ("2", [("_id", Val.str "2"), ("$deleted", Val.bool true)])] id
        then mapGet [("1", [("_id", Val.str "1"), ("n", Val.num 5)]),
            ("2", [("_id", Val.str "2"), ("$deleted", Val.bool true)])] id
        else none :=
  C3_persist_load_roundtrip
    { strict := false
      hasFile := true
      list := ["1", "2"]
      map := [("1", [("_id", Val.str "1"), ("n", Val.num 5)]),
        ("2", [("_id", Val.str "2"), ("$deleted", Val.bool true)])] }
    rfl (by decide) (by decide)
